import Mathlib

/-!
Shallow embedding of the llm-compressor-graph core (weight-map parser,
forward-pass orderer, param-count aggregator, selection optimizer and
ignore-list parser) together with theorems checking the specification's
claims against it.

Module paths and all other strings are modelled as `List Char` (called
`Str` below); JavaScript numbers holding layer indices and element counts
are modelled as `Nat`.
-/

abbrev Str := List Char

/-- Double-quote character. -/
def dq : Char := '"'

/-- Single-quote character (written by code point to keep sources plain). -/
def squote : Char := Char.ofNat 39

/-- Lower-casing of a string, modelling JavaScript `toLowerCase` on the
ASCII segment names the repository deals with. -/
def lowerStr (s : Str) : Str := s.map Char.toLower

/-- Substring containment, modelling JavaScript `String.prototype.includes`. -/
def listIncludes (hay needle : Str) : Bool :=
  hay.tails.any (fun t => needle.isPrefixOf t)

/-- Test that a string is a nonempty run of decimal digits, modelling the
regular expression `^\d+$` used for numbered-layer names. -/
def isDigitsStr (s : Str) : Bool := !s.isEmpty && s.all Char.isDigit

/-- Decimal digit character for a value below ten. -/
def digitChar (n : Nat) : Char := Char.ofNat (48 + n)

/-- Fueled decimal rendering helper; the fuel only has to exceed the number. -/
def natToStrAux : Nat → Nat → Str
  | 0, _ => []
  | fuel + 1, n =>
    if n < 10 then [digitChar n]
    else natToStrAux fuel (n / 10) ++ [digitChar (n % 10)]

/-- Decimal rendering of a natural number, modelling JavaScript `String(n)`
for the non-negative integers that appear as layer indices. -/
def natToStr (n : Nat) : Str := natToStrAux (n + 1) n

/-- Decimal reading of a digit string, modelling `parseInt(s, 10)` on the
all-digit captures produced by the template regular expression. -/
def strToNat (s : Str) : Nat := s.foldl (fun a c => a * 10 + (c.toNat - 48)) 0

/-- Stable insertion of one element into a list: the element goes before
the first entry it compares `le` to, so earlier equal entries stay first. -/
def insertLe (le : α → α → Bool) (a : α) : List α → List α
  | [] => [a]
  | b :: bs => if le a b then a :: b :: bs else b :: insertLe le a bs

/-- Stable insertion sort, modelling `Array.prototype.sort` with a
consistent comparator (ECMAScript sorts are stable). -/
def sortIns (le : α → α → Bool) (l : List α) : List α :=
  l.foldr (insertLe le) []

/-- Semantic role of a module-tree node (`LayerType` in `types.ts`). -/
inductive LayerType where
  | embedding | attention | mlp | norm | head | vision | group
deriving DecidableEq, Repr

/-- Module-tree node (`LayerNode` in `types.ts`): identifier, own segment
name, full dotted path, role, children, selectable-leaf flag and optional
element count. -/
inductive LayerNode where
  | mk (id : Str) (name : Str) (fullPath : Str) (type : LayerType)
       (children : List LayerNode) (isSelectable : Bool) (paramCount : Option Nat)

def LayerNode.id : LayerNode → Str
  | .mk i _ _ _ _ _ _ => i

def LayerNode.name : LayerNode → Str
  | .mk _ nm _ _ _ _ _ => nm

def LayerNode.fullPath : LayerNode → Str
  | .mk _ _ f _ _ _ _ => f

def LayerNode.type : LayerNode → LayerType
  | .mk _ _ _ t _ _ _ => t

def LayerNode.children : LayerNode → List LayerNode
  | .mk _ _ _ _ cs _ _ => cs

def LayerNode.isSelectable : LayerNode → Bool
  | .mk _ _ _ _ _ sel _ => sel

def LayerNode.paramCount : LayerNode → Option Nat
  | .mk _ _ _ _ _ _ pc => pc

/-- Embedding marker of the classifier cascade (step 1): substring
`embed`, or exact alias `wte` / `wpe`, on the lower-cased segment. -/
def embedCond (s : Str) : Bool :=
  listIncludes s "embed".toList || s = "wte".toList || s = "wpe".toList

/-- Normalization marker of the classifier cascade (step 2): substring
`norm` / `layernorm`, or one of the exact norm aliases. -/
def normCond (s : Str) : Bool :=
  listIncludes s "norm".toList || listIncludes s "layernorm".toList ||
  s = "ln_1".toList || s = "ln_2".toList || s = "ln_f".toList ||
  s = "final_layer_norm".toList || s = "input_layernorm".toList ||
  s = "post_attention_layernorm".toList || s = "layer_norm1".toList ||
  s = "layer_norm2".toList

/-- Output-head marker of the classifier cascade (step 3). -/
def headCond (s : Str) : Bool :=
  s = "lm_head".toList || s = "score".toList || s = "classifier".toList

/-- Attention candidate marker (outer condition of step 4). -/
def attnOuterCond (s : Str) : Bool :=
  listIncludes s "self_attn".toList || listIncludes s "attention".toList ||
  listIncludes s "attn".toList ||
  s = "q_proj".toList || s = "k_proj".toList || s = "v_proj".toList ||
  s = "o_proj".toList || s = "qkv_proj".toList || s = "query".toList ||
  s = "key".toList || s = "value".toList

/-- Full-path corroboration for attention (first inner check of step 4). -/
def attnFpCond (fp : Str) : Bool :=
  listIncludes fp "attn".toList || listIncludes fp "attention".toList ||
  listIncludes fp "self_attn".toList

/-- Explicit projection aliases (second inner check of step 4). -/
def attnAliasCond (s : Str) : Bool :=
  s = "q_proj".toList || s = "k_proj".toList || s = "v_proj".toList ||
  s = "o_proj".toList || s = "qkv_proj".toList || s = "query".toList ||
  s = "key".toList || s = "value".toList

/-- MLP candidate marker (outer condition of step 5). -/
def mlpOuterCond (s : Str) : Bool :=
  listIncludes s "mlp".toList ||
  s = "gate_proj".toList || s = "up_proj".toList || s = "down_proj".toList ||
  s = "fc1".toList || s = "fc2".toList || s = "c_fc".toList ||
  s = "c_proj".toList || s = "gate_up_proj".toList ||
  s = "dense_h_to_4h".toList || s = "dense_4h_to_h".toList

/-- Corroboration for MLP (inner check of step 5): full path contains
`mlp`, or segment is in the explicit list that omits `c_proj`. -/
def mlpInnerCond (s fp : Str) : Bool :=
  listIncludes fp "mlp".toList ||
  s = "gate_proj".toList || s = "up_proj".toList || s = "down_proj".toList ||
  s = "fc1".toList || s = "fc2".toList || s = "c_fc".toList ||
  s = "gate_up_proj".toList || s = "dense_h_to_4h".toList ||
  s = "dense_4h_to_h".toList

/-- Vision marker checked on the full path only (step 6). -/
def visionCond (fp : Str) : Bool :=
  listIncludes fp "vision".toList || listIncludes fp "visual".toList ||
  listIncludes fp "image_encoder".toList || listIncludes fp "vit".toList ||
  listIncludes fp "clip".toList

/-- Role classifier `classifySegment(segment, fullPath)` from
`weightMapParser.ts`: an ordered cascade over the lower-cased segment and
full path.  Norm markers are checked before attention markers, and the
attention / MLP candidates fall through to the later steps when their
corroborating inner check fails. -/
def classifySegment (segment fullPath : Str) : LayerType :=
  let s := lowerStr segment
  let fp := lowerStr fullPath
  if embedCond s then .embedding
  else if normCond s then .norm
  else if headCond s then .head
  else if attnOuterCond s && (attnFpCond fp || attnAliasCond s) then .attention
  else if mlpOuterCond s && mlpInnerCond s fp then .mlp
  else if visionCond fp then .vision
  else .group

/-- Test for a pure-decimal sibling name, the `^\d+$` check used by the
numbered-layer collapse pass. -/
def isNumName (n : LayerNode) : Bool := isDigitsStr (LayerNode.name n)

/-- Numeric comparison of two numbered siblings, modelling the comparator
`(a, b) => parseInt(a.name, 10) - parseInt(b.name, 10)`. -/
def numLe (a b : LayerNode) : Bool :=
  strToNat (LayerNode.name a) ≤ strToNat (LayerNode.name b)

/-- One level of the numbered-layer collapse: non-numbered siblings keep
their relative order, numbered siblings follow, sorted numerically. -/
def partSortNum (ns : List LayerNode) : List LayerNode :=
  ns.filter (fun n => !isNumName n) ++ sortIns numLe (ns.filter isNumName)

mutual

/-- Recursive half of `collapseNumberedLayers`: rebuild one node with its
children collapsed.  The source collapses the sibling list first and then
recurses; since `partSortNum` looks only at segment names, which the
recursion preserves, rebuilding children first yields the same tree (the
commuted form is proved as `collapseNumberedLayers_eq_filter`). -/
def collapseNode : LayerNode → LayerNode
  | .mk i nm f t cs sel pc => .mk i nm f t (partSortNum (collapseChildren cs)) sel pc

/-- Pointwise recursion of the collapse pass over a sibling list. -/
def collapseChildren : List LayerNode → List LayerNode
  | [] => []
  | n :: ns => collapseNode n :: collapseChildren ns

end

/-- Numbered-layer collapse pass `collapseNumberedLayers(nodes)` from
`weightMapParser.ts`. -/
def collapseNumberedLayers (ns : List LayerNode) : List LayerNode :=
  partSortNum (collapseChildren ns)

/-- Forward-pass priority table `getForwardPassPriority(name)` from
`weightMapParser.ts`.  The source uses the floats 5.0 / 5.1 / 5.2 / 5.3
and 99; every priority is scaled by ten here so the table lives in `Nat`
with the same ordering. -/
def getForwardPassPriority (name : Str) : Nat :=
  let s := lowerStr name
  if listIncludes s "embed".toList || s = "wte".toList || s = "wpe".toList ||
     s = "patch_embed".toList || s = "pos_embed".toList then 0
  else if listIncludes s "visual".toList || listIncludes s "vision".toList ||
     s = "vit".toList || s = "clip".toList || s = "image_encoder".toList then 10
  else if s = "merger".toList || s = "connector".toList || s = "projector".toList ||
     s = "multi_modal_projector".toList || s = "deepstack".toList then 20
  else if s = "language_model".toList || s = "model".toList ||
     s = "transformer".toList then 30
  else if s = "layers".toList || s = "blocks".toList || s = "h".toList ||
     s = "encoder".toList || isDigitsStr s then 40
  else if s = "input_layernorm".toList || s = "layer_norm1".toList then 50
  else if s = "self_attn".toList || s = "attention".toList || s = "attn".toList then 51
  else if s = "post_attention_layernorm".toList || s = "layer_norm2".toList then 52
  else if s = "mlp".toList then 53
  else if s = "norm".toList || s = "ln_f".toList || s = "final_layer_norm".toList ||
     s = "final_layernorm".toList then 60
  else if s = "lm_head".toList || s = "classifier".toList || s = "score".toList then 70
  else 990

/-- Comparator of the forward-pass sort, by priority of the segment name. -/
def leFP (a b : LayerNode) : Bool :=
  getForwardPassPriority (LayerNode.name a) ≤ getForwardPassPriority (LayerNode.name b)

mutual

/-- Recursive half of `sortForwardPass`: rebuild one node with its
children sorted.  The source sorts a sibling list first and then maps the
recursion over it; since the comparator looks only at segment names, which
the recursion preserves, recursing first is the same tree (the commuted
form is proved as `sortForwardPass_eq_source`). -/
def sortNode : LayerNode → LayerNode
  | .mk i nm f t cs sel pc => .mk i nm f t (sortIns leFP (sortChildren cs)) sel pc

/-- Pointwise recursion of the forward-pass sort over a sibling list. -/
def sortChildren : List LayerNode → List LayerNode
  | [] => []
  | n :: ns => sortNode n :: sortChildren ns

end

/-- Forward-pass orderer `sortForwardPass(nodes)` from `weightMapParser.ts`. -/
def sortForwardPass (ns : List LayerNode) : List LayerNode :=
  sortIns leFP (sortChildren ns)

/-- Known weight-tensor suffixes, `WEIGHT_SUFFIXES` from `weightMapParser.ts`. -/
def WEIGHT_SUFFIXES : List Str :=
  [".weight".toList, ".bias".toList, ".scales".toList,
   ".zero_point".toList, ".weight_scale".toList]

/-- Path normalizer `stripWeightSuffix(key)`: remove the first matching
known suffix, or return the key unchanged. -/
def stripWeightSuffix (key : Str) : Str :=
  match WEIGHT_SUFFIXES.find? (fun sfx => sfx.isSuffixOf key) with
  | some sfx => key.take (key.length - sfx.length)
  | none => key

/-- Lookup in an insertion-ordered association list, modelling
`Map.prototype.get` (returning `none` for an absent key). -/
def mpGet : List (Str × Nat) → Str → Option Nat
  | [], _ => none
  | (k, v) :: rest, key => if k = key then some v else mpGet rest key

/-- Update of an insertion-ordered association list, modelling
`Map.prototype.set`: overwrite in place when the key exists, else append. -/
def mpUpd : List (Str × Nat) → Str → Nat → List (Str × Nat)
  | [], key, v => [(key, v)]
  | (k, w) :: rest, key, v =>
    if k = key then (key, v) :: rest else (k, w) :: mpUpd rest key v

/-- First phase of `attachParamCounts`: normalize every tensor name via
`stripWeightSuffix` and sum the element counts per module path. -/
def buildModuleParams (tc : List (Str × Nat)) : List (Str × Nat) :=
  tc.foldl
    (fun m kv =>
      let mp := stripWeightSuffix kv.1
      mpUpd m mp ((mpGet m mp).getD 0 + kv.2))
    []

/-- Attached count of a node, with the source's `c.paramCount ?? 0` default. -/
def countOf (n : LayerNode) : Nat := (LayerNode.paramCount n).getD 0

/-- Sum of the attached counts of a sibling list. -/
def sumCounts (ns : List LayerNode) : Nat := (ns.map countOf).sum

mutual

/-- Recursive half of `attachParamCounts`: a leaf gets its module's summed
count (zero when absent), a non-leaf gets the sum of its freshly attached
children. -/
def attachNode (mp : List (Str × Nat)) : LayerNode → LayerNode
  | .mk i nm f t [] sel _ => .mk i nm f t [] sel (some ((mpGet mp f).getD 0))
  | .mk i nm f t (c :: cs) sel _ =>
    let newCs := attachList mp (c :: cs)
    .mk i nm f t newCs sel (some (sumCounts newCs))

/-- Pointwise recursion of count attachment over a sibling list. -/
def attachList (mp : List (Str × Nat)) : List LayerNode → List LayerNode
  | [] => []
  | n :: ns => attachNode mp n :: attachList mp ns

end

/-- Param-count aggregator `attachParamCounts(nodes, tensorParamCounts)`
from `weightMapParser.ts`; the tensor-count map is an insertion-ordered
association list. -/
def attachParamCounts (ns : List LayerNode) (tc : List (Str × Nat)) : List LayerNode :=
  attachList (buildModuleParams tc) ns

/-- Regex metacharacters escaped by `escapeRegex` (the character class
written in the source as a bracket expression over `.*+?^$\x7b\x7d()|[]\\`). -/
def metaChars : Str :=
  ['.', '*', '+', '?', '^', '$', '{', '}', '(', ')', '|', '[', ']', '\\']

def isMeta (c : Char) : Bool := metaChars.contains c

/-- Escaping of one character for use inside a regular expression. -/
def escChar (c : Char) : Str := if isMeta c then ['\\', c] else [c]

/-- Regex escaping `escapeRegex(str)` from `selectionOptimizer`. -/
def escapeRegex (s : Str) : Str := (s.map escChar).flatten

/-- Placeholder spliced in place of the layer index when a path is turned
into a template (the source's literal index marker). -/
def placeholder : Str := ['{', '{', 'I', 'N', 'D', 'E', 'X', '}', '}']

/-- One backtracking position of the template match `^(.+\.)(\d+)(\..+)$`:
a candidate first-group length `i` (at least two characters, ending in a
dot), then a maximal nonempty digit run, then a suffix that starts with a
dot and has at least one character after it. -/
def tryAt (p : Str) (i : Nat) : Option (Str × Str × Str) :=
  if 2 ≤ i ∧ i ≤ p.length ∧ (p.take i).getLast? = some '.' then
    let pre := p.take i
    let rest := p.drop i
    let ds := rest.takeWhile Char.isDigit
    let rest2 := rest.drop ds.length
    if ds ≠ [] ∧ rest2.head? = some '.' ∧ 2 ≤ rest2.length then some (pre, ds, rest2)
    else none
  else none

/-- Template detection `toTemplate(path)` from `selectionOptimizer`: the
greedy match of `^(.+\.)(\d+)(\..+)$`, which picks the longest first group
(hence the last isolated numeric segment).  Returns the decomposition
(first group, digit run, third group) or `none`. -/
def toTemplate (p : Str) : Option (Str × Str × Str) :=
  ((List.range (p.length + 1)).reverse).findSome? (tryAt p)

/-- The template key of a decomposition: index replaced by `placeholder`. -/
def templateKey (pre suf : Str) : Str := pre ++ placeholder ++ suf

/-- One template group of the optimizer (`TemplateGroup` in the source):
template key, prefix and suffix of the first path seen for it, and the
selected indices in first-seen order. -/
structure TGroup where
  tmpl : Str
  pre : Str
  suf : Str
  idxs : List Nat

/-- Record one more selected index for its template group, creating the
group (in first-seen order) if it does not exist yet, as the source's
`Map`-based loop does. -/
def addIdx : List TGroup → Str → Str → Str → Nat → List TGroup
  | [], t, pre, suf, i => [⟨t, pre, suf, [i]⟩]
  | g :: gs, t, pre, suf, i =>
    if g.tmpl = t then ⟨g.tmpl, g.pre, g.suf, g.idxs ++ [i]⟩ :: gs
    else g :: addIdx gs t pre suf i

/-- Fold step grouping one selected path. -/
def groupStep (gs : List TGroup) (p : Str) : List TGroup :=
  match toTemplate p with
  | none => gs
  | some (pre, ds, suf) => addIdx gs (templateKey pre suf) pre suf (strToNat ds)

/-- Template groups of a selection, in first-seen template order. -/
def groupsOf (sel : List Str) : List TGroup := sel.foldl groupStep []

/-- The selected paths with no isolated numeric segment, in selection
order (the source's `nonTemplated` array). -/
def nonTemplated (sel : List Str) : List Str :=
  sel.filter (fun p => (toTemplate p).isNone)

/-- Number of selectable paths of the universe sharing a template (the
source's `allTemplateCount` map, with `?? 0` for an absent template). -/
def countTemplate (univ : List Str) (t : Str) : Nat :=
  (univ.filter (fun p =>
    match toTemplate p with
    | some (pre, _, suf) => decide (templateKey pre suf = t)
    | none => false)).length

/-- Contiguity check of a sorted index list (`isContiguous` in the source). -/
def isContiguous : List Nat → Bool
  | [] => true
  | [_] => true
  | a :: b :: t => (b == a + 1) && isContiguous (b :: t)

/-- Literal prefix `re:` marking a regex rule. -/
def reMark : Str := ['r', 'e', ':']

/-- Pattern fragment `\d+` used by the full-wildcard emission. -/
def wildcardPat : Str := ['\\', 'd', '+']

/-- Alternation join `i1|i2|...` of the rendered indices. -/
def joinBar : List Str → Str
  | [] => []
  | [x] => x
  | x :: xs => x ++ '|' :: joinBar xs

/-- Comparator for sorting layer indices ascending. -/
def natLeB (a b : Nat) : Bool := a ≤ b

/-- Rule emission for one template group: full-wildcard regex when every
universe index of the template is selected, literals for three or fewer
indices, and otherwise one alternation regex (the contiguity check is kept
from the source, whose two arms emit the identical pattern). -/
def emitGroup (total : Nat) (g : TGroup) : List Str :=
  let sorted := sortIns natLeB g.idxs
  if sorted.length = total then
    [reMark ++ escapeRegex g.pre ++ wildcardPat ++ escapeRegex g.suf]
  else if sorted.length ≤ 3 then
    sorted.map (fun i => g.pre ++ natToStr i ++ g.suf)
  else if isContiguous sorted then
    [reMark ++ escapeRegex g.pre ++ '(' :: joinBar (sorted.map natToStr) ++ ')' :: escapeRegex g.suf]
  else
    [reMark ++ escapeRegex g.pre ++ '(' :: joinBar (sorted.map natToStr) ++ ')' :: escapeRegex g.suf]

/-- Selection optimizer `optimizeSelection(selectedPaths, allSelectablePaths)`
from `selectionOptimizer`: returns the explicit form (the selection
unchanged) and the optimized rule list (non-templated literals first, then
one block per template group in first-seen order). -/
def optimizeSelection (sel univ : List Str) : List Str × List Str :=
  if sel.isEmpty then ([], [])
  else
    (sel,
     nonTemplated sel ++
       ((groupsOf sel).map (fun g => emitGroup (countTemplate univ g.tmpl) g)).flatten)

/-- Four-space indentation of one emitted ignore item. -/
def sp4 : Str := [' ', ' ', ' ', ' ']

/-- One emitted line: four spaces, the double-quoted item, a comma. -/
def wrapItem (i : Str) : Str := sp4 ++ dq :: (i ++ [dq, ','])

/-- Newline join of the emitted lines (`Array.prototype.join('\n')`). -/
def joinNL : List Str → Str
  | [] => []
  | [x] => x
  | x :: xs => x ++ '\n' :: joinNL xs

/-- List body formatting `formatStringList(items)` from `formatOutput.ts`:
`[]` when empty, otherwise a bracketed, newline-separated block of
four-space-indented quoted items. -/
def formatStringList (items : List Str) : Str :=
  if items.isEmpty then ['[', ']']
  else '[' :: '\n' :: (joinNL (items.map wrapItem) ++ ['\n', ']'])

/-- Emission `formatIgnoreList(items)` from `formatOutput.ts`. -/
def formatIgnoreList (items : List Str) : Str :=
  "ignore=".toList ++ formatStringList items

/-- True for either quote character (the extraction class of quoted items). -/
def isQuote (c : Char) : Bool := c == dq || c == squote

/-- First bracketed span of a text, modelling the match of `\[([^\]]*)\]`
with the dot-all flag: the content between the first opening bracket that
is followed by a closing bracket and the first closing bracket after it;
`none` when the text has no such span. -/
def bracketInner : Str → Option Str
  | [] => none
  | c :: rest =>
    if c = '[' then
      if rest.contains ']' then some (rest.takeWhile (fun d => d != ']')) else none
    else bracketInner rest

/-- Fueled scan extracting every quoted item, modelling the global match
loop of `["']([^"']+)["']`: at a quote, the maximal run of following
non-quote characters is an item when it is nonempty and closed by another
quote (of either kind); an empty run restarts the scan at the closing
quote.  The fuel only has to reach the length of the text. -/
def extractQuotedAux : Nat → Str → List Str
  | 0, _ => []
  | fuel + 1, l =>
    match l with
    | [] => []
    | c :: rest =>
      if isQuote c then
        let content := rest.takeWhile (fun d => !isQuote d)
        let rest2 := rest.drop content.length
        match rest2 with
        | [] => []
        | _ :: after =>
          if content.isEmpty then extractQuotedAux fuel rest2
          else content :: extractQuotedAux fuel after
      else extractQuotedAux fuel rest

/-- Quoted-item extraction over a text. -/
def extractQuoted (l : Str) : List Str := extractQuotedAux l.length l

/-- Abstract syntax of the regex fragment the optimizer emits: literal
characters, the digit class `\d` (once or `+`-repeated), and a group of
literal alternatives `(w1|w2|...)`. -/
inductive RItem where
  | ch (c : Char)
  | digit
  | digits
  | alts (ws : List Str)
deriving DecidableEq

/-- Decision of `pattern can match some prefix of s`, by cases on the
first pattern item; `\d+` tries every nonempty digit-run split and an
alternative group tries each literal alternative. -/
def rmatchPre : List RItem → Str → Bool
  | [], _ => true
  | .ch _ :: _, [] => false
  | .ch c :: ps, d :: s => c == d && rmatchPre ps s
  | .digit :: _, [] => false
  | .digit :: ps, d :: s => d.isDigit && rmatchPre ps s
  | .digits :: ps, s =>
    (List.range s.length).any (fun k =>
      (s.take (k + 1)).all Char.isDigit && rmatchPre ps (s.drop (k + 1)))
  | .alts ws :: ps, s =>
    ws.any (fun w => w.isPrefixOf s && rmatchPre ps (s.drop w.length))

/-- Decision of `pattern matches exactly s` (anchored at both ends). -/
def rmatchFull : List RItem → Str → Bool
  | [], s => s.isEmpty
  | .ch _ :: _, [] => false
  | .ch c :: ps, d :: s => c == d && rmatchFull ps s
  | .digit :: _, [] => false
  | .digit :: ps, d :: s => d.isDigit && rmatchFull ps s
  | .digits :: ps, s =>
    (List.range s.length).any (fun k =>
      (s.take (k + 1)).all Char.isDigit && rmatchFull ps (s.drop (k + 1)))
  | .alts ws :: ps, s =>
    ws.any (fun w => w.isPrefixOf s && rmatchFull ps (s.drop w.length))

/-- Unanchored test, modelling `RegExp.prototype.test`: the pattern may
match starting at any position of the string, ending anywhere. -/
def rtest (r : List RItem) (s : Str) : Bool := s.tails.any (rmatchPre r)

/-- Split of a group body on the alternation bar. -/
def splitBar : Str → List Str
  | [] => [[]]
  | c :: rest =>
    if c = '|' then [] :: splitBar rest
    else
      match splitBar rest with
      | [] => [[c]]
      | w :: ws => (c :: w) :: ws

/-- Fueled parser of the emitted regex fragment into `RItem`s: an escape
of a metacharacter is a literal, `\d` (optionally `+`-repeated) is the
digit class, a parenthesised body of bar-separated literal runs is an
alternative group, and a plain non-metacharacter is a literal.  Any other
construct is rejected with `none`; the optimizer never emits one, and
`parseIgnoreItems` treats an unsupported pattern like a failed regex
compilation.  The fuel only has to reach the length of the pattern. -/
def parseRegexAux : Nat → Str → Option (List RItem)
  | _, [] => some []
  | 0, _ :: _ => none
  | fuel + 1, c :: rest =>
    if c = '\\' then
      match rest with
      | [] => none
      | d :: rest2 =>
        if d = 'd' then
          if rest2.head? = some '+' then (parseRegexAux fuel rest2.tail).map (RItem.digits :: ·)
          else (parseRegexAux fuel rest2).map (RItem.digit :: ·)
        else if isMeta d then (parseRegexAux fuel rest2).map (RItem.ch d :: ·)
        else none
    else if c = '(' then
      match rest.drop (rest.takeWhile (fun d => d != ')')).length with
      | [] => none
      | _ :: after =>
        if (rest.takeWhile (fun d => d != ')')).all (fun d => d == '|' || !isMeta d) then
          (parseRegexAux fuel after).map
            (RItem.alts (splitBar (rest.takeWhile (fun d => d != ')'))) :: ·)
        else none
    else if isMeta c then none
    else (parseRegexAux fuel rest).map (RItem.ch c :: ·)

/-- Compilation of a pattern string (the part after `re:`). -/
def parseRegex (l : Str) : Option (List RItem) := parseRegexAux l.length l

/-- Insertion-ordered set add, modelling `Set.prototype.add`. -/
def addPath (acc : List Str) (x : Str) : List Str :=
  if x ∈ acc then acc else acc ++ [x]

/-- Resolution of one extracted item against the universe: a `re:` item is
compiled (an uncompilable pattern contributes nothing) and every universe
path it tests positive on is added; any other item is added only when it
is literally present in the universe. -/
def resolveItem (univ acc : List Str) (item : Str) : List Str :=
  if reMark.isPrefixOf item then
    match parseRegex (item.drop 3) with
    | some r => univ.foldl (fun a p => if rtest r p then addPath a p else a) acc
    | none => acc
  else if item ∈ univ then addPath acc item
  else acc

/-- Resolution of an item list, in item order then universe order. -/
def resolveItems (items univ : List Str) : List Str :=
  items.foldl (resolveItem univ) []

/-- Ignore-list parser `parseIgnoreItems(text, allSelectablePaths)` from
`formatOutput.ts`: extract the quoted items of the first bracketed span
and resolve them against the universe into an order-stable deduplicated
list (empty when the text has no bracketed span). -/
def parseIgnoreItems (text : Str) (univ : List Str) : List Str :=
  match bracketInner text with
  | none => []
  | some inner => resolveItems (extractQuoted inner) univ

/-- Specification-level description of what one extracted item contributes
to the resolution: a universe path matched by the compiled `re:` pattern,
or the item itself when it is literally a universe path. -/
def ResolvesTo (univ : List Str) (item y : Str) : Prop :=
  y ∈ univ ∧
    (if reMark.isPrefixOf item then
      ∃ r, parseRegex (item.drop 3) = some r ∧ rtest r y = true
     else y = item)

/-- Characters a module path must avoid for the emitted ignore list to
survive the quoted-item extraction: the two quote characters, the closing
bracket and the opening brace (the brace keeps template keys unambiguous). -/
def badChars : Str := [dq, squote, ']', '{']

/-- Well-formedness of a module path as used by the round-trip theorem:
nonempty, free of `badChars`, and not itself carrying the `re:` marker. -/
def wfPath (p : Str) : Bool :=
  !p.isEmpty && p.all (fun c => !badChars.contains c) && !reMark.isPrefixOf p

/-- Canonical decimal form of the templated layer index of a path (no
leading zeros); trivially true for a non-templated path. -/
def canonIdx (p : Str) : Bool :=
  match toTemplate p with
  | some (_, ds, _) => ds == natToStr (strToNat ds)
  | none => true

/-- Bool-valued pairwise check of a comparator over a list. -/
def pairwiseLeB (le : α → α → Bool) : List α → Bool
  | [] => true
  | a :: l => l.all (le a) && pairwiseLeB le l

mutual

/-- A node whose children are in forward-pass order, recursively. -/
def fpSortedNode : LayerNode → Bool
  | .mk _ _ _ _ cs _ _ => pairwiseLeB leFP cs && fpSortedAll cs

/-- Every node of a sibling list is recursively forward-pass sorted. -/
def fpSortedAll : List LayerNode → Bool
  | [] => true
  | n :: ns => fpSortedNode n && fpSortedAll ns

end

/-- A sibling list already in forward-pass order at every level. -/
def fpSortedList (ns : List LayerNode) : Bool :=
  pairwiseLeB leFP ns && fpSortedAll ns

theorem mem_insertLe {le : α → α → Bool} {x a : α} {l : List α} :
    x ∈ insertLe le a l ↔ x = a ∨ x ∈ l := by
  induction l with
  | nil => simp [insertLe]
  | cons b bs ih =>
    simp only [insertLe]
    split
    · simp [List.mem_cons]
    · simp only [List.mem_cons, ih]
      tauto

theorem perm_insertLe (le : α → α → Bool) (a : α) (l : List α) :
    List.Perm (insertLe le a l) (a :: l) := by
  induction l with
  | nil => simp [insertLe]
  | cons b bs ih =>
    simp only [insertLe]
    split
    · exact List.Perm.refl _
    · exact (ih.cons b).trans (List.Perm.swap a b bs)

theorem perm_sortIns (le : α → α → Bool) (l : List α) : List.Perm (sortIns le l) l := by
  induction l with
  | nil => exact List.Perm.refl _
  | cons a l ih => exact (perm_insertLe le a (sortIns le l)).trans (ih.cons a)

theorem mem_sortIns {le : α → α → Bool} {x : α} {l : List α} :
    x ∈ sortIns le l ↔ x ∈ l :=
  (perm_sortIns le l).mem_iff

theorem pairwise_insertLe {le : α → α → Bool}
    (htot : ∀ x y, le x y = true ∨ le y x = true)
    (htr : ∀ x y z, le x y = true → le y z = true → le x z = true)
    {a : α} {l : List α} (h : l.Pairwise (fun x y => le x y = true)) :
    (insertLe le a l).Pairwise (fun x y => le x y = true) := by
  induction l with
  | nil => simp [insertLe]
  | cons b bs ih =>
    rcases List.pairwise_cons.mp h with ⟨hb, hbs⟩
    simp only [insertLe]
    split
    · rename_i hab
      refine List.pairwise_cons.mpr ⟨?_, h⟩
      intro x hx
      rcases List.mem_cons.mp hx with rfl | hx
      · exact hab
      · exact htr a b x hab (hb x hx)
    · rename_i hab
      refine List.pairwise_cons.mpr ⟨?_, ih hbs⟩
      intro x hx
      rcases mem_insertLe.mp hx with rfl | hx
      · rcases htot b x with h' | h'
        · exact h'
        · exact absurd h' hab
      · exact hb x hx

theorem pairwise_sortIns {le : α → α → Bool}
    (htot : ∀ x y, le x y = true ∨ le y x = true)
    (htr : ∀ x y z, le x y = true → le y z = true → le x z = true)
    (l : List α) : (sortIns le l).Pairwise (fun x y => le x y = true) := by
  induction l with
  | nil => simp [sortIns]
  | cons a l ih => exact pairwise_insertLe htot htr ih

theorem insertLe_of_le {le : α → α → Bool} {a : α} {l : List α}
    (h : ∀ x ∈ l, le a x = true) : insertLe le a l = a :: l := by
  cases l with
  | nil => rfl
  | cons b bs => simp [insertLe, h b (by simp)]

theorem sortIns_of_pairwise {le : α → α → Bool} {l : List α}
    (h : l.Pairwise (fun x y => le x y = true)) : sortIns le l = l := by
  induction l with
  | nil => rfl
  | cons a l ih =>
    rcases List.pairwise_cons.mp h with ⟨ha, hl⟩
    show insertLe le a (sortIns le l) = a :: l
    rw [ih hl]
    exact insertLe_of_le ha

theorem insertLe_map {le : α → α → Bool} {le' : β → β → Bool} {f : α → β}
    (hf : ∀ x y, le' (f x) (f y) = le x y) (a : α) (l : List α) :
    insertLe le' (f a) (l.map f) = (insertLe le a l).map f := by
  induction l with
  | nil => rfl
  | cons b bs ih =>
    simp only [List.map_cons, insertLe, hf]
    split
    · rfl
    · simp [ih]

theorem sortIns_map {le : α → α → Bool} {le' : β → β → Bool} {f : α → β}
    (hf : ∀ x y, le' (f x) (f y) = le x y) (l : List α) :
    sortIns le' (l.map f) = (sortIns le l).map f := by
  induction l with
  | nil => rfl
  | cons a l ih =>
    show insertLe le' (f a) (sortIns le' (l.map f)) = _
    rw [ih]
    exact insertLe_map hf a (sortIns le l)

theorem pairwiseLeB_iff {le : α → α → Bool} {l : List α} :
    pairwiseLeB le l = true ↔ l.Pairwise (fun x y => le x y = true) := by
  induction l with
  | nil => simp [pairwiseLeB]
  | cons a l ih =>
    simp only [pairwiseLeB, Bool.and_eq_true, List.all_eq_true, List.pairwise_cons, ih]

theorem collapseChildren_eq_map (ns : List LayerNode) :
    collapseChildren ns = ns.map collapseNode := by
  induction ns with
  | nil => rfl
  | cons n ns ih => simp [collapseChildren, ih]

theorem sortChildren_eq_map (ns : List LayerNode) :
    sortChildren ns = ns.map sortNode := by
  induction ns with
  | nil => rfl
  | cons n ns ih => simp [sortChildren, ih]

theorem attachList_eq_map (mp : List (Str × Nat)) (ns : List LayerNode) :
    attachList mp ns = ns.map (attachNode mp) := by
  induction ns with
  | nil => rfl
  | cons n ns ih => simp [attachList, ih]

theorem collapseNode_name (n : LayerNode) : (collapseNode n).name = n.name := by
  cases n; rfl

theorem collapseNode_id (n : LayerNode) : (collapseNode n).id = n.id := by
  cases n; rfl

theorem collapseNode_fullPath (n : LayerNode) : (collapseNode n).fullPath = n.fullPath := by
  cases n; rfl

theorem collapseNode_type (n : LayerNode) : (collapseNode n).type = n.type := by
  cases n; rfl

theorem sortNode_name (n : LayerNode) : (sortNode n).name = n.name := by
  cases n; rfl

theorem sortNode_id (n : LayerNode) : (sortNode n).id = n.id := by
  cases n; rfl

theorem sortNode_fullPath (n : LayerNode) : (sortNode n).fullPath = n.fullPath := by
  cases n; rfl

theorem sortNode_type (n : LayerNode) : (sortNode n).type = n.type := by
  cases n; rfl

theorem sortNode_isSelectable (n : LayerNode) : (sortNode n).isSelectable = n.isSelectable := by
  cases n; rfl

theorem sortNode_paramCount (n : LayerNode) : (sortNode n).paramCount = n.paramCount := by
  cases n; rfl

theorem sortNode_children (n : LayerNode) :
    (sortNode n).children = sortForwardPass n.children := by
  cases n
  simp [sortNode, sortForwardPass, LayerNode.children]

theorem isNumName_collapseNode (n : LayerNode) : isNumName (collapseNode n) = isNumName n := by
  simp [isNumName, collapseNode_name]

theorem numLe_collapseNode (a b : LayerNode) :
    numLe (collapseNode a) (collapseNode b) = numLe a b := by
  simp [numLe, collapseNode_name]

theorem leFP_sortNode (a b : LayerNode) : leFP (sortNode a) (sortNode b) = leFP a b := by
  simp [leFP, sortNode_name]

theorem leFP_total (a b : LayerNode) : leFP a b = true ∨ leFP b a = true := by
  simp only [leFP, decide_eq_true_eq]
  omega

theorem leFP_trans (a b c : LayerNode) :
    leFP a b = true → leFP b c = true → leFP a c = true := by
  simp only [leFP, decide_eq_true_eq]
  omega

theorem numLe_total (a b : LayerNode) : numLe a b = true ∨ numLe b a = true := by
  simp only [numLe, decide_eq_true_eq]
  omega

theorem numLe_trans (a b c : LayerNode) :
    numLe a b = true → numLe b c = true → numLe a c = true := by
  simp only [numLe, decide_eq_true_eq]
  omega

/-- C4: the classifier checks normalization markers before attention
markers, so `post_attention_layernorm` classifies as norm for every full
path; more generally any segment whose lower-cased form carries a norm
marker (substring `norm` / `layernorm` or a listed alias) classifies as
norm whenever no embedding marker matched first. -/
theorem claim_C4_norm_before_attention :
    (∀ fp : Str,
      classifySegment "post_attention_layernorm".toList fp = LayerType.norm) ∧
    (∀ s fp : Str, embedCond (lowerStr s) = false → normCond (lowerStr s) = true →
      classifySegment s fp = LayerType.norm) := by
  refine ⟨fun fp => rfl, fun s fp h1 h2 => ?_⟩
  simp [classifySegment, h1, h2]

/-- C4 witness: the general clause applied to the segment
`input_layernorm` with a concrete full path. -/
theorem claim_C4_witness :
    embedCond (lowerStr "input_layernorm".toList) = false ∧
    normCond (lowerStr "input_layernorm".toList) = true ∧
    classifySegment "input_layernorm".toList
      "model.layers.0.input_layernorm".toList = LayerType.norm :=
  ⟨by decide, by decide,
    claim_C4_norm_before_attention.2 "input_layernorm".toList
      "model.layers.0.input_layernorm".toList (by decide) (by decide)⟩

/-- C2 counterexample: on the five-path universe with everything
selected, the optimizer emits the full-wildcard regex for each
single-instance template (one selected index equals the universe count of
the template, so the equality branch fires before the three-or-fewer
branch), so the optimized list is not five literals: it contains a `re:`
rule and does not contain the literal `model.layers.0.self_attn.q_proj`. -/
theorem claim_C2_counterexample :
    "re:model\\.layers\\.\\d+\\.self_attn\\.q_proj".toList ∈
      (optimizeSelection
        ["model.embed_tokens".toList, "model.layers.0.self_attn.q_proj".toList,
         "model.layers.0.mlp.down_proj".toList, "model.norm".toList, "lm_head".toList]
        ["model.embed_tokens".toList, "model.layers.0.self_attn.q_proj".toList,
         "model.layers.0.mlp.down_proj".toList, "model.norm".toList, "lm_head".toList]).2 ∧
    "model.layers.0.self_attn.q_proj".toList ∉
      (optimizeSelection
        ["model.embed_tokens".toList, "model.layers.0.self_attn.q_proj".toList,
         "model.layers.0.mlp.down_proj".toList, "model.norm".toList, "lm_head".toList]
        ["model.embed_tokens".toList, "model.layers.0.self_attn.q_proj".toList,
         "model.layers.0.mlp.down_proj".toList, "model.norm".toList, "lm_head".toList]).2 := by
  decide

/-- C2 amended: on the five-path universe with all five paths selected,
the optimized rule list is the three non-templated literals
`model.embed_tokens`, `model.norm`, `lm_head` followed by the two
full-wildcard regex rules for the two single-instance templates. -/
theorem claim_C2_amended :
    (optimizeSelection
      ["model.embed_tokens".toList, "model.layers.0.self_attn.q_proj".toList,
       "model.layers.0.mlp.down_proj".toList, "model.norm".toList, "lm_head".toList]
      ["model.embed_tokens".toList, "model.layers.0.self_attn.q_proj".toList,
       "model.layers.0.mlp.down_proj".toList, "model.norm".toList, "lm_head".toList]).2 =
    ["model.embed_tokens".toList, "model.norm".toList, "lm_head".toList,
     "re:model\\.layers\\.\\d+\\.self_attn\\.q_proj".toList,
     "re:model\\.layers\\.\\d+\\.mlp\\.down_proj".toList] := by
  decide

/-- C3: on the universe `model.layers.{0..31}.mlp.down_proj`, selecting
all 32 indices yields the single full-wildcard rule; selecting `{0,1,2}`
yields three literals and no regex; selecting `{0,5,10,15,20}` (given in
scrambled order) yields the single alternation rule with the indices
sorted ascending; a contiguous five-index selection `{4..8}` yields the
same alternation form. -/
theorem claim_C3_template_compression :
    (optimizeSelection
      ((List.range 32).map (fun i => "model.layers.".toList ++ natToStr i ++ ".mlp.down_proj".toList))
      ((List.range 32).map (fun i => "model.layers.".toList ++ natToStr i ++ ".mlp.down_proj".toList))).2 =
      ["re:model\\.layers\\.\\d+\\.mlp\\.down_proj".toList] ∧
    (optimizeSelection
      ([0, 1, 2].map (fun i => "model.layers.".toList ++ natToStr i ++ ".mlp.down_proj".toList))
      ((List.range 32).map (fun i => "model.layers.".toList ++ natToStr i ++ ".mlp.down_proj".toList))).2 =
      ["model.layers.0.mlp.down_proj".toList, "model.layers.1.mlp.down_proj".toList,
       "model.layers.2.mlp.down_proj".toList] ∧
    (optimizeSelection
      ([20, 0, 15, 5, 10].map (fun i => "model.layers.".toList ++ natToStr i ++ ".mlp.down_proj".toList))
      ((List.range 32).map (fun i => "model.layers.".toList ++ natToStr i ++ ".mlp.down_proj".toList))).2 =
      ["re:model\\.layers\\.(0|5|10|15|20)\\.mlp\\.down_proj".toList] ∧
    (optimizeSelection
      ([4, 5, 6, 7, 8].map (fun i => "model.layers.".toList ++ natToStr i ++ ".mlp.down_proj".toList))
      ((List.range 32).map (fun i => "model.layers.".toList ++ natToStr i ++ ".mlp.down_proj".toList))).2 =
      ["re:model\\.layers\\.(4|5|6|7|8)\\.mlp\\.down_proj".toList] := by
  refine ⟨by decide, by decide, by decide, by decide⟩

theorem mem_partSortNum {x : LayerNode} {l : List LayerNode} (h : x ∈ partSortNum l) :
    x ∈ l := by
  rcases List.mem_append.mp h with h | h
  · exact (List.mem_filter.mp h).1
  · exact (List.mem_filter.mp (mem_sortIns.mp h)).1

/-- C5: the numbered-layer collapse keeps the non-pure-digit siblings
first, in their existing relative order (a filter of the input), followed
by the pure-digit siblings sorted ascending by integer value, recursing
into every node's children via `collapseNode`; no surviving node's
identity, full path, role, or name changes; and on sibling names
`["10", "2", "1", "mlp"]` the resulting order is `["mlp", "1", "2", "10"]`. -/
theorem claim_C5_numbered_collapse :
    (∀ ns : List LayerNode,
      collapseNumberedLayers ns =
        (ns.filter (fun n => !isNumName n)).map collapseNode ++
          sortIns numLe ((ns.filter isNumName).map collapseNode) ∧
      (sortIns numLe ((ns.filter isNumName).map collapseNode)).Pairwise
        (fun a b => numLe a b = true) ∧
      List.Perm (sortIns numLe ((ns.filter isNumName).map collapseNode))
        ((ns.filter isNumName).map collapseNode) ∧
      (∀ n' ∈ collapseNumberedLayers ns, ∃ n ∈ ns,
        n'.id = n.id ∧ n'.fullPath = n.fullPath ∧ n'.type = n.type ∧ n'.name = n.name)) ∧
    (collapseNumberedLayers
      [LayerNode.mk "10".toList "10".toList "10".toList .group [] true none,
       LayerNode.mk "2".toList "2".toList "2".toList .group [] true none,
       LayerNode.mk "1".toList "1".toList "1".toList .group [] true none,
       LayerNode.mk "mlp".toList "mlp".toList "mlp".toList .mlp [] true none]).map
        LayerNode.name =
      ["mlp".toList, "1".toList, "2".toList, "10".toList] := by
  constructor
  · intro ns
    refine ⟨?_, ?_, ?_, ?_⟩
    · show partSortNum (collapseChildren ns) = _
      rw [collapseChildren_eq_map, partSortNum, List.filter_map, List.filter_map]
      congr 2
      · exact List.filter_congr (fun n _ => by
          simp [Function.comp, isNumName_collapseNode])
      · exact congrArg _ (List.filter_congr (fun n _ => by
          simp [Function.comp, isNumName_collapseNode]))
    · exact pairwise_sortIns numLe_total numLe_trans _
    · exact perm_sortIns numLe _
    · intro n' hn'
      have hmem : n' ∈ collapseChildren ns := mem_partSortNum hn'
      rw [collapseChildren_eq_map] at hmem
      rcases List.mem_map.mp hmem with ⟨n, hn, rfl⟩
      exact ⟨n, hn, collapseNode_id n, collapseNode_fullPath n, collapseNode_type n,
        collapseNode_name n⟩
  · decide

/-- C6: the forward-pass orderer returns a permutation of the recursively
sorted input siblings, sorted by the fixed priority of each node's own
segment name; every output node is the recursive sort of an input node;
the recursion preserves identity, name, path, role, selectability and
count while re-sorting children; and a layer container with children
`["mlp", "self_attn", "input_layernorm", "post_attention_layernorm"]`
comes out as `["input_layernorm", "self_attn", "post_attention_layernorm",
"mlp"]`. -/
theorem claim_C6_forward_pass_order :
    (∀ ns : List LayerNode,
      List.Perm (sortForwardPass ns) (ns.map sortNode) ∧
      (sortForwardPass ns).Pairwise (fun a b => leFP a b = true) ∧
      (∀ n' ∈ sortForwardPass ns, ∃ n ∈ ns, n' = sortNode n)) ∧
    (∀ n : LayerNode,
      (sortNode n).id = n.id ∧ (sortNode n).name = n.name ∧
      (sortNode n).fullPath = n.fullPath ∧ (sortNode n).type = n.type ∧
      (sortNode n).isSelectable = n.isSelectable ∧
      (sortNode n).paramCount = n.paramCount ∧
      (sortNode n).children = sortForwardPass n.children) ∧
    (sortForwardPass
      [LayerNode.mk "mlp".toList "mlp".toList "mlp".toList .mlp [] true none,
       LayerNode.mk "self_attn".toList "self_attn".toList "self_attn".toList .attention [] true none,
       LayerNode.mk "input_layernorm".toList "input_layernorm".toList "input_layernorm".toList .norm [] true none,
       LayerNode.mk "post_attention_layernorm".toList "post_attention_layernorm".toList "post_attention_layernorm".toList .norm [] true none]).map
        LayerNode.name =
      ["input_layernorm".toList, "self_attn".toList,
       "post_attention_layernorm".toList, "mlp".toList] := by
  refine ⟨fun ns => ⟨?_, ?_, ?_⟩, fun n => ?_, by decide⟩
  · show List.Perm (sortIns leFP (sortChildren ns)) _
    rw [sortChildren_eq_map]
    exact perm_sortIns leFP _
  · exact pairwise_sortIns leFP_total leFP_trans _
  · intro n' hn'
    have hmem : n' ∈ sortChildren ns := mem_sortIns.mp hn'
    rw [sortChildren_eq_map] at hmem
    rcases List.mem_map.mp hmem with ⟨n, hn, rfl⟩
    exact ⟨n, hn, rfl⟩
  · exact ⟨sortNode_id n, sortNode_name n, sortNode_fullPath n, sortNode_type n,
      sortNode_isSelectable n, sortNode_paramCount n, sortNode_children n⟩

/-- C5 witness: the field-preservation clause applied to the singleton
sibling list holding the leaf node named `7`. -/
theorem claim_C5_witness :
    ∃ n ∈ [LayerNode.mk "7".toList "7".toList "7".toList .group [] true none],
      (LayerNode.mk "7".toList "7".toList "7".toList .group [] true none).id = n.id ∧
      (LayerNode.mk "7".toList "7".toList "7".toList .group [] true none).fullPath = n.fullPath ∧
      (LayerNode.mk "7".toList "7".toList "7".toList .group [] true none).type = n.type ∧
      (LayerNode.mk "7".toList "7".toList "7".toList .group [] true none).name = n.name :=
  (claim_C5_numbered_collapse.1
      [LayerNode.mk "7".toList "7".toList "7".toList .group [] true none]).2.2.2
    (LayerNode.mk "7".toList "7".toList "7".toList .group [] true none)
    (show _ ∈ collapseNumberedLayers
        [LayerNode.mk "7".toList "7".toList "7".toList .group [] true none] from
      List.mem_cons_self _ _)

/-- C6 witness: the membership clause applied to the singleton sibling
list holding the leaf node named `mlp`. -/
theorem claim_C6_witness :
    ∃ n ∈ [LayerNode.mk "mlp".toList "mlp".toList "mlp".toList .mlp [] true none],
      LayerNode.mk "mlp".toList "mlp".toList "mlp".toList .mlp [] true none = sortNode n :=
  (claim_C6_forward_pass_order.1
      [LayerNode.mk "mlp".toList "mlp".toList "mlp".toList .mlp [] true none]).2.2
    (LayerNode.mk "mlp".toList "mlp".toList "mlp".toList .mlp [] true none)
    (show _ ∈ sortForwardPass
        [LayerNode.mk "mlp".toList "mlp".toList "mlp".toList .mlp [] true none] from
      List.mem_cons_self _ _)

theorem mpGet_mpUpd_self (m : List (Str × Nat)) (k : Str) (v : Nat) :
    mpGet (mpUpd m k v) k = some v := by
  induction m with
  | nil => simp [mpUpd, mpGet]
  | cons kv m ih =>
    obtain ⟨k', v'⟩ := kv
    simp only [mpUpd]
    split
    · simp [mpGet]
    · rename_i hne
      simp only [mpGet]
      rw [if_neg hne]
      exact ih

theorem mpGet_mpUpd_other (m : List (Str × Nat)) (k q : Str) (v : Nat) (h : k ≠ q) :
    mpGet (mpUpd m k v) q = mpGet m q := by
  induction m with
  | nil => simp [mpUpd, mpGet, h]
  | cons kv m ih =>
    obtain ⟨k', v'⟩ := kv
    simp only [mpUpd]
    split
    · rename_i heq
      subst heq
      simp [mpGet, h]
    · simp only [mpGet]
      split
      · rfl
      · exact ih

theorem mpGet_buildModuleParams_fold (tc : List (Str × Nat)) (acc : List (Str × Nat)) (path : Str) :
    (mpGet (tc.foldl
        (fun m kv => mpUpd m (stripWeightSuffix kv.1) ((mpGet m (stripWeightSuffix kv.1)).getD 0 + kv.2))
        acc) path).getD 0 =
      (mpGet acc path).getD 0 +
        ((tc.filter (fun kv => decide (stripWeightSuffix kv.1 = path))).map Prod.snd).sum := by
  induction tc generalizing acc with
  | nil => simp
  | cons kv tc ih =>
    simp only [List.foldl_cons, List.filter_cons]
    rw [ih]
    by_cases h : stripWeightSuffix kv.1 = path
    · rw [h, mpGet_mpUpd_self]
      simp [h]
      omega
    · rw [mpGet_mpUpd_other _ _ _ _ h]
      simp [h]

/-- C7: the aggregator first normalizes each tensor-name key through
`stripWeightSuffix` and sums element counts per module path (clause one:
the built map realizes exactly the per-module filtered sum, hence zero for
an absent module); in the returned tree every leaf carries its module's
summed count, every non-leaf carries the sum of its children's attached
counts, and all other node fields are preserved (clause two); and a
container with two leaf children counting 100 and 250 reports 350 while a
leaf absent from the map reports 0 (clause three). -/
theorem claim_C7_param_aggregation :
    (∀ (tc : List (Str × Nat)) (path : Str),
      (mpGet (buildModuleParams tc) path).getD 0 =
        ((tc.filter (fun kv => decide (stripWeightSuffix kv.1 = path))).map Prod.snd).sum) ∧
    (∀ (ns : List LayerNode) (tc : List (Str × Nat)) (n' : LayerNode),
      n' ∈ attachParamCounts ns tc →
      (n'.children = [] →
        n'.paramCount = some ((mpGet (buildModuleParams tc) n'.fullPath).getD 0)) ∧
      (n'.children ≠ [] → n'.paramCount = some (sumCounts n'.children)) ∧
      ∃ n ∈ ns, n'.id = n.id ∧ n'.name = n.name ∧ n'.fullPath = n.fullPath ∧
        n'.type = n.type ∧ n'.isSelectable = n.isSelectable) ∧
    attachParamCounts
      [LayerNode.mk "m".toList "m".toList "m".toList .group
        [LayerNode.mk "m.a".toList "a".toList "m.a".toList .group [] true none,
         LayerNode.mk "m.b".toList "b".toList "m.b".toList .group [] true none] false none,
       LayerNode.mk "z".toList "z".toList "z".toList .group [] true none]
      [("m.a.weight".toList, 60), ("m.a.bias".toList, 40), ("m.b.weight".toList, 250)] =
      [LayerNode.mk "m".toList "m".toList "m".toList .group
        [LayerNode.mk "m.a".toList "a".toList "m.a".toList .group [] true (some 100),
         LayerNode.mk "m.b".toList "b".toList "m.b".toList .group [] true (some 250)] false (some 350),
       LayerNode.mk "z".toList "z".toList "z".toList .group [] true (some 0)] := by
  refine ⟨fun tc path => ?_, ?_, by rfl⟩
  · simpa [buildModuleParams, mpGet] using mpGet_buildModuleParams_fold tc [] path
  intro ns tc n' hn'
  unfold attachParamCounts at hn'
  rw [attachList_eq_map] at hn'
  rcases List.mem_map.mp hn' with ⟨n, hn, rfl⟩
  obtain ⟨i, nm, f, t, cs, sel, pc⟩ := n
  cases cs with
  | nil =>
    refine ⟨fun _ => rfl, fun h => absurd rfl h, ?_⟩
    exact ⟨.mk i nm f t [] sel pc, hn, rfl, rfl, rfl, rfl, rfl⟩
  | cons c cs =>
    refine ⟨?_, fun _ => rfl, ?_⟩
    · intro h
      simp only [attachNode, LayerNode.children, attachList] at h
      exact absurd h (List.cons_ne_nil _ _)
    · exact ⟨.mk i nm f t (c :: cs) sel pc, hn, rfl, rfl, rfl, rfl, rfl⟩

/-- C7 witness: the per-node clause applied to the singleton tree holding
the leaf `z` with an empty tensor-count map. -/
theorem claim_C7_witness :
    ((LayerNode.mk "z".toList "z".toList "z".toList .group [] true (some 0)).children = [] →
      (LayerNode.mk "z".toList "z".toList "z".toList .group [] true (some 0)).paramCount =
        some ((mpGet (buildModuleParams [])
          (LayerNode.mk "z".toList "z".toList "z".toList .group [] true (some 0)).fullPath).getD 0)) ∧
    ((LayerNode.mk "z".toList "z".toList "z".toList .group [] true (some 0)).children ≠ [] →
      (LayerNode.mk "z".toList "z".toList "z".toList .group [] true (some 0)).paramCount =
        some (sumCounts (LayerNode.mk "z".toList "z".toList "z".toList .group [] true (some 0)).children)) ∧
    ∃ n ∈ [LayerNode.mk "z".toList "z".toList "z".toList .group [] true none],
      (LayerNode.mk "z".toList "z".toList "z".toList .group [] true (some 0)).id = n.id ∧
      (LayerNode.mk "z".toList "z".toList "z".toList .group [] true (some 0)).name = n.name ∧
      (LayerNode.mk "z".toList "z".toList "z".toList .group [] true (some 0)).fullPath = n.fullPath ∧
      (LayerNode.mk "z".toList "z".toList "z".toList .group [] true (some 0)).type = n.type ∧
      (LayerNode.mk "z".toList "z".toList "z".toList .group [] true (some 0)).isSelectable = n.isSelectable :=
  claim_C7_param_aggregation.2.1
    [LayerNode.mk "z".toList "z".toList "z".toList .group [] true none] []
    (LayerNode.mk "z".toList "z".toList "z".toList .group [] true (some 0))
    (show _ ∈ attachParamCounts
        [LayerNode.mk "z".toList "z".toList "z".toList .group [] true none] [] from
      List.mem_cons_self _ _)

theorem fpSortedAll_iff {l : List LayerNode} :
    fpSortedAll l = true ↔ ∀ n ∈ l, fpSortedNode n = true := by
  induction l with
  | nil => simp [fpSortedAll]
  | cons n ns ih =>
    simp only [fpSortedAll, Bool.and_eq_true, ih, List.mem_cons]
    constructor
    · rintro ⟨h1, h2⟩ x (rfl | hx)
      · exact h1
      · exact h2 x hx
    · intro h
      exact ⟨h n (Or.inl rfl), fun x hx => h x (Or.inr hx)⟩

theorem fpSortedNode_eq_children (n : LayerNode) :
    fpSortedNode n = fpSortedList n.children := by
  cases n; rfl

theorem sizeOf_children_lt (n : LayerNode) : sizeOf n.children < sizeOf n := by
  cases n
  simp [LayerNode.children]
  omega

theorem sortForwardPass_of_fpSorted :
    ∀ k, ∀ ns : List LayerNode, sizeOf ns ≤ k →
      fpSortedList ns = true → sortForwardPass ns = ns := by
  intro k
  induction k using Nat.strong_induction_on with
  | _ k ih =>
    intro ns hsz hsort
    simp only [fpSortedList, Bool.and_eq_true] at hsort
    rcases hsort with ⟨hpw, hall⟩
    have hnodes : ∀ n ∈ ns, sortNode n = n := by
      intro n hn
      have hltn : sizeOf n < sizeOf ns := List.sizeOf_lt_of_mem hn
      have hcs : sortForwardPass n.children = n.children := by
        refine ih (sizeOf n.children) ?_ n.children le_rfl ?_
        · calc sizeOf n.children < sizeOf n := sizeOf_children_lt n
            _ ≤ k := le_trans (le_of_lt hltn) hsz
        · rw [← fpSortedNode_eq_children]
          exact fpSortedAll_iff.mp hall n hn
      obtain ⟨i, nm, f, t, cs, sel, pc⟩ := n
      simp only [LayerNode.children] at hcs
      show LayerNode.mk i nm f t (sortIns leFP (sortChildren cs)) sel pc = _
      rw [show sortIns leFP (sortChildren cs) = sortForwardPass cs from rfl, hcs]
    have hchild : sortChildren ns = ns := by
      rw [sortChildren_eq_map]
      calc ns.map sortNode = ns.map id := List.map_congr_left hnodes
        _ = ns := List.map_id ns
    show sortIns leFP (sortChildren ns) = ns
    rw [hchild]
    exact sortIns_of_pairwise (pairwiseLeB_iff.mp hpw)

theorem fpSortedList_sortForwardPass :
    ∀ k, ∀ ns : List LayerNode, sizeOf ns ≤ k →
      fpSortedList (sortForwardPass ns) = true := by
  intro k
  induction k using Nat.strong_induction_on with
  | _ k ih =>
    intro ns hsz
    simp only [fpSortedList, Bool.and_eq_true]
    refine ⟨?_, ?_⟩
    · exact pairwiseLeB_iff.mpr (pairwise_sortIns leFP_total leFP_trans _)
    · refine fpSortedAll_iff.mpr ?_
      intro n' hn'
      have hmem : n' ∈ sortChildren ns := mem_sortIns.mp hn'
      rw [sortChildren_eq_map] at hmem
      rcases List.mem_map.mp hmem with ⟨n, hn, rfl⟩
      rw [fpSortedNode_eq_children, sortNode_children]
      refine ih (sizeOf n.children) ?_ n.children le_rfl
      calc sizeOf n.children < sizeOf n := sizeOf_children_lt n
        _ ≤ k := le_trans (le_of_lt (List.sizeOf_lt_of_mem hn)) hsz

/-- C8: reordering a tree whose every sibling list is already in
forward-pass order (recursively) returns it unchanged — ties keep their
existing relative order because the sort is stable — and consequently
`sortForwardPass` is idempotent on every sibling list. -/
theorem claim_C8_sort_idempotent :
    (∀ ns : List LayerNode, fpSortedList ns = true → sortForwardPass ns = ns) ∧
    (∀ ns : List LayerNode, sortForwardPass (sortForwardPass ns) = sortForwardPass ns) := by
  constructor
  · intro ns h
    exact sortForwardPass_of_fpSorted (sizeOf ns) ns le_rfl h
  · intro ns
    exact sortForwardPass_of_fpSorted (sizeOf (sortForwardPass ns)) (sortForwardPass ns) le_rfl
      (fpSortedList_sortForwardPass (sizeOf ns) ns le_rfl)

/-- C8 witness: the fixed-point clause applied to a concrete two-node
sibling list already in forward-pass order. -/
theorem claim_C8_witness :
    fpSortedList
      [LayerNode.mk "embed_tokens".toList "embed_tokens".toList "model.embed_tokens".toList .embedding [] true none,
       LayerNode.mk "norm".toList "norm".toList "model.norm".toList .norm [] true none] = true ∧
    sortForwardPass
      [LayerNode.mk "embed_tokens".toList "embed_tokens".toList "model.embed_tokens".toList .embedding [] true none,
       LayerNode.mk "norm".toList "norm".toList "model.norm".toList .norm [] true none] =
      [LayerNode.mk "embed_tokens".toList "embed_tokens".toList "model.embed_tokens".toList .embedding [] true none,
       LayerNode.mk "norm".toList "norm".toList "model.norm".toList .norm [] true none] :=
  ⟨by decide, claim_C8_sort_idempotent.1 _ (by decide)⟩

theorem takeWhile_append_stop {p : Char → Bool} {l rest : Str} {x : Char}
    (hl : ∀ c ∈ l, p c = true) (hx : p x = false) :
    (l ++ x :: rest).takeWhile p = l := by
  induction l with
  | nil => simp [List.takeWhile_cons, hx]
  | cons c l ih =>
    rw [List.cons_append, List.takeWhile_cons, hl c (by simp)]
    rw [ih (fun d hd => hl d (by simp [hd]))]
    simp

theorem dropWhile_ne_mem {x : Char} {l : Str} (h : x ∈ l) :
    ∃ r, l.dropWhile (fun d => d != x) = x :: r := by
  induction l with
  | nil => cases h
  | cons c t ih =>
    by_cases hc : c = x
    · subst hc
      exact ⟨t, by simp [List.dropWhile_cons]⟩
    · have hx : x ∈ t := by
        rcases List.mem_cons.mp h with h' | h'
        · exact absurd h'.symm hc
        · exact h'
      obtain ⟨r, hr⟩ := ih hx
      refine ⟨r, ?_⟩
      rw [List.dropWhile_cons]
      simp only [bne_iff_ne, ne_eq, hc, not_false_eq_true, if_true]
      exact hr

theorem bracketInner_append_skip {j rest : Str} (h : '[' ∉ j) :
    bracketInner (j ++ rest) = bracketInner rest := by
  induction j with
  | nil => rfl
  | cons c j ih =>
    have hc : ¬(c = '[') := fun hc => h (hc ▸ List.mem_cons_self c j)
    rw [List.cons_append]
    show (if c = '[' then _ else bracketInner (j ++ rest)) = _
    rw [if_neg hc]
    exact ih (fun hm => h (List.mem_cons_of_mem _ hm))

theorem bracketInner_found {inner j2 : Str} (h : ']' ∉ inner) :
    bracketInner ('[' :: (inner ++ ']' :: j2)) = some inner := by
  show (if ('[' : Char) = '[' then _ else _) = _
  rw [if_pos rfl]
  have hcontains : (inner ++ ']' :: j2).contains ']' = true := by
    simp
  rw [if_pos hcontains]
  congr 1
  exact takeWhile_append_stop (fun c hc => by
    simp only [bne_iff_ne, ne_eq, decide_eq_true_eq]
    exact fun heq => h (heq ▸ hc)) (by simp)

theorem bracketInner_some_decomp {text inner : Str} (h : bracketInner text = some inner) :
    ∃ l r, text = l ++ '[' :: (inner ++ ']' :: r) := by
  induction text with
  | nil => simp [bracketInner] at h
  | cons c rest ih =>
    by_cases hc : c = '['
    · subst hc
      rw [show bracketInner ('[' :: rest) =
          (if rest.contains ']' then some (rest.takeWhile (fun d => d != ']')) else none) from by
        show (if ('[' : Char) = '[' then _ else _) = _
        rw [if_pos rfl]] at h
      by_cases hz : rest.contains ']' = true
      · rw [if_pos hz] at h
        have hinner : rest.takeWhile (fun d => d != ']') = inner := by
          injection h
        have hmem : ']' ∈ rest := by simpa using hz
        obtain ⟨r, hr⟩ := dropWhile_ne_mem hmem
        refine ⟨[], r, ?_⟩
        have hsplit := List.takeWhile_append_dropWhile (p := fun d => d != ']') (l := rest)
        rw [hinner, hr] at hsplit
        rw [List.nil_append, ← hsplit]
      · rw [if_neg hz] at h
        cases h
    · rw [show bracketInner (c :: rest) = bracketInner rest from by
        show (if c = '[' then _ else _) = _
        rw [if_neg hc]] at h
      obtain ⟨l, r, rfl⟩ := ih h
      exact ⟨c :: l, r, rfl⟩

/-- C10: on any text with no bracketed span (no opening bracket followed
by a closing bracket) the parser returns the empty list; and on any text
that decomposes around a first bracketed span, the result is exactly the
resolution of the quoted items of that span — text before and after the
span never contributes. -/
theorem claim_C10_bracket_span :
    (∀ (text : Str) (univ : List Str),
      (¬ ∃ l mid r : Str, text = l ++ '[' :: (mid ++ ']' :: r)) →
      parseIgnoreItems text univ = []) ∧
    (∀ (j1 inner j2 : Str) (univ : List Str), '[' ∉ j1 → ']' ∉ inner →
      parseIgnoreItems (j1 ++ '[' :: (inner ++ ']' :: j2)) univ =
        resolveItems (extractQuoted inner) univ) := by
  constructor
  · intro text univ hno
    unfold parseIgnoreItems
    cases h : bracketInner text with
    | none => rfl
    | some inner =>
      obtain ⟨l, r, hdec⟩ := bracketInner_some_decomp h
      exact absurd ⟨l, inner, r, hdec⟩ hno
  · intro j1 inner j2 univ h1 h2
    unfold parseIgnoreItems
    rw [bracketInner_append_skip h1, bracketInner_found h2]

/-- C10 witness: a bracket-free text resolves to nothing, and a
decomposed bracketed text resolves to its span's items. -/
theorem claim_C10_witness :
    parseIgnoreItems "ignore nothing here".toList ["a".toList] = [] ∧
    parseIgnoreItems ("xx".toList ++ '[' :: ("\"a\"".toList ++ ']' :: "yy".toList))
        ["a".toList] =
      resolveItems (extractQuoted "\"a\"".toList) ["a".toList] := by
  constructor
  · refine claim_C10_bracket_span.1 "ignore nothing here".toList ["a".toList] ?_
    rintro ⟨l, mid, r, h⟩
    have hmem : '[' ∈ "ignore nothing here".toList := by
      rw [h]
      simp
    exact absurd hmem (by decide)
  · exact claim_C10_bracket_span.2 "xx".toList "\"a\"".toList "yy".toList ["a".toList]
      (by decide) (by decide)

theorem extractQuotedAux_irrel :
    ∀ f1 f2 l, l.length ≤ f1 → l.length ≤ f2 →
      extractQuotedAux f1 l = extractQuotedAux f2 l := by
  intro f1
  induction f1 with
  | zero =>
    intro f2 l h1 _
    have : l = [] := List.eq_nil_of_length_eq_zero (Nat.le_zero.mp h1)
    subst this
    cases f2 <;> rfl
  | succ f1 ih =>
    intro f2 l h1 h2
    cases l with
    | nil => cases f2 <;> rfl
    | cons c rest =>
      cases f2 with
      | zero => simp at h2
      | succ f2 =>
        simp only [List.length_cons, Nat.succ_le_succ_iff] at h1 h2
        show extractQuotedAux (f1 + 1) (c :: rest) = extractQuotedAux (f2 + 1) (c :: rest)
        simp only [extractQuotedAux]
        by_cases hq : isQuote c
        · simp only [hq, if_true]
          cases hre : rest.drop (rest.takeWhile (fun d => !isQuote d)).length with
          | nil => rfl
          | cons y after =>
            have hlen : rest.length - (rest.takeWhile (fun d => !isQuote d)).length = after.length + 1 := by
              have := congrArg List.length hre
              simpa using this
            have htk : (rest.takeWhile (fun d => !isQuote d)).length ≤ rest.length :=
              (List.takeWhile_prefix _).length_le
            by_cases hemp : (rest.takeWhile (fun d => !isQuote d)).isEmpty
            · simp only [hemp, if_true]
              have hre0 : rest = y :: after := by
                have hz : (rest.takeWhile (fun d => !isQuote d)).length = 0 := by
                  simpa [List.isEmpty_iff_length_eq_zero] using hemp
                rw [hz, List.drop_zero] at hre
                exact hre
              rw [← hre0]
              exact ih f2 rest h1 h2
            · have hemp' : (rest.takeWhile (fun d => !isQuote d)).isEmpty = false := by
                simpa using hemp
              simp only [hemp', Bool.false_eq_true, if_false]
              have hafter1 : after.length ≤ f1 := by omega
              have hafter2 : after.length ≤ f2 := by omega
              rw [ih f2 after hafter1 hafter2]
        · simp only [hq, if_false]
          exact ih f2 rest h1 h2

theorem extractQuoted_cons_not_quote {c : Char} {t : Str} (h : isQuote c = false) :
    extractQuoted (c :: t) = extractQuoted t := by
  show extractQuotedAux (t.length + 1) (c :: t) = extractQuoted t
  simp only [extractQuotedAux, h, if_false]
  rfl

theorem extractQuoted_skip {j rest : Str} (h : ∀ c ∈ j, isQuote c = false) :
    extractQuoted (j ++ rest) = extractQuoted rest := by
  induction j with
  | nil => rfl
  | cons c j ih =>
    rw [List.cons_append, extractQuoted_cons_not_quote (h c (by simp))]
    exact ih (fun d hd => h d (by simp [hd]))

theorem extractQuoted_item {q1 q2 : Char} {item rest : Str}
    (h1 : isQuote q1 = true) (h2 : isQuote q2 = true)
    (hne : item ≠ []) (hnq : ∀ c ∈ item, isQuote c = false) :
    extractQuoted (q1 :: (item ++ q2 :: rest)) = item :: extractQuoted rest := by
  have hcont : (item ++ q2 :: rest).takeWhile (fun d => !isQuote d) = item :=
    takeWhile_append_stop (fun c hc => by simp [hnq c hc]) (by simp [h2])
  show extractQuotedAux ((item ++ q2 :: rest).length + 1) (q1 :: (item ++ q2 :: rest)) = _
  simp only [extractQuotedAux, h1, if_true, hcont]
  rw [List.drop_left item (q2 :: rest)]
  have hemp : item.isEmpty = false := by
    cases item with
    | nil => exact absurd rfl hne
    | cons a b => rfl
  simp only [hemp, Bool.false_eq_true, if_false]
  congr 1
  refine extractQuotedAux_irrel _ _ rest ?_ le_rfl
  simp
  omega

theorem mem_addPath {acc : List Str} {x y : Str} :
    y ∈ addPath acc x ↔ y ∈ acc ∨ y = x := by
  unfold addPath
  split
  · rename_i h
    constructor
    · exact Or.inl
    · rintro (hy | rfl)
      · exact hy
      · exact h
  · simp [List.mem_append]

theorem mem_regex_fold {univ acc : List Str} {r : List RItem} {y : Str} :
    y ∈ univ.foldl (fun a p => if rtest r p then addPath a p else a) acc ↔
      y ∈ acc ∨ (y ∈ univ ∧ rtest r y = true) := by
  induction univ generalizing acc with
  | nil => simp
  | cons p univ ih =>
    simp only [List.foldl_cons, ih, List.mem_cons]
    split
    · rename_i hp
      simp only [mem_addPath]
      constructor
      · rintro ((h | rfl) | ⟨hm, ht⟩)
        · exact Or.inl h
        · exact Or.inr ⟨Or.inl rfl, hp⟩
        · exact Or.inr ⟨Or.inr hm, ht⟩
      · rintro (h | ⟨rfl | hm, ht⟩)
        · exact Or.inl (Or.inl h)
        · exact Or.inl (Or.inr rfl)
        · exact Or.inr ⟨hm, ht⟩
    · rename_i hp
      constructor
      · rintro (h | ⟨hm, ht⟩)
        · exact Or.inl h
        · exact Or.inr ⟨Or.inr hm, ht⟩
      · rintro (h | ⟨rfl | hm, ht⟩)
        · exact Or.inl h
        · exact absurd ht hp
        · exact Or.inr ⟨hm, ht⟩

theorem mem_resolveItem {univ acc : List Str} {item y : Str} :
    y ∈ resolveItem univ acc item ↔ y ∈ acc ∨ ResolvesTo univ item y := by
  unfold resolveItem ResolvesTo
  by_cases hpre : reMark.isPrefixOf item
  · simp only [hpre, if_true]
    cases hr : parseRegex (item.drop 3) with
    | none => simp [hr]
    | some r =>
      rw [mem_regex_fold]
      simp only [hr, Option.some_inj]
      constructor
      · rintro (h | ⟨hm, ht⟩)
        · exact Or.inl h
        · exact Or.inr ⟨hm, r, rfl, ht⟩
      · rintro (h | ⟨hm, r', rfl, ht⟩)
        · exact Or.inl h
        · exact Or.inr ⟨hm, ht⟩
  · rw [if_neg hpre, if_neg hpre]
    by_cases hin : item ∈ univ
    · rw [if_pos hin, mem_addPath]
      constructor
      · rintro (h | rfl)
        · exact Or.inl h
        · exact Or.inr ⟨hin, rfl⟩
      · rintro (h | ⟨hm, rfl⟩)
        · exact Or.inl h
        · exact Or.inr rfl
    · rw [if_neg hin]
      constructor
      · exact Or.inl
      · rintro (h | ⟨hm, rfl⟩)
        · exact h
        · exact absurd hm hin

theorem mem_resolveItems {items univ : List Str} {y : Str} :
    y ∈ resolveItems items univ ↔ ∃ item ∈ items, ResolvesTo univ item y := by
  suffices h : ∀ acc, y ∈ items.foldl (resolveItem univ) acc ↔
      y ∈ acc ∨ ∃ item ∈ items, ResolvesTo univ item y by
    simpa using h []
  induction items with
  | nil => simp
  | cons it items ih =>
    intro acc
    simp only [List.foldl_cons, ih, mem_resolveItem, List.mem_cons]
    constructor
    · rintro ((h | hr) | ⟨item, hm, hr⟩)
      · exact Or.inl h
      · exact Or.inr ⟨it, Or.inl rfl, hr⟩
      · exact Or.inr ⟨item, Or.inr hm, hr⟩
    · rintro (h | ⟨item, rfl | hm, hr⟩)
      · exact Or.inl (Or.inl h)
      · exact Or.inl (Or.inr hr)
      · exact Or.inr ⟨item, hm, hr⟩

theorem resolveItems_subset {items univ : List Str} {y : Str}
    (h : y ∈ resolveItems items univ) : y ∈ univ :=
  (mem_resolveItems.mp h).choose_spec.2.1

theorem parseRegexAux_irrel :
    ∀ f1 f2 l, l.length ≤ f1 → l.length ≤ f2 →
      parseRegexAux f1 l = parseRegexAux f2 l := by
  intro f1
  induction f1 with
  | zero =>
    intro f2 l h1 _
    have : l = [] := List.eq_nil_of_length_eq_zero (Nat.le_zero.mp h1)
    subst this
    cases f2 <;> rfl
  | succ f1 ih =>
    intro f2 l h1 h2
    cases l with
    | nil => cases f2 <;> rfl
    | cons c rest =>
      cases f2 with
      | zero => simp at h2
      | succ f2 =>
        simp only [List.length_cons, Nat.succ_le_succ_iff] at h1 h2
        show parseRegexAux (f1 + 1) (c :: rest) = parseRegexAux (f2 + 1) (c :: rest)
        simp only [parseRegexAux]
        by_cases hbs : c = '\\'
        · rw [if_pos hbs, if_pos hbs]
          cases rest with
          | nil => rfl
          | cons d rest2 =>
            show (if d = 'd' then
                (if rest2.head? = some '+' then
                  (parseRegexAux f1 rest2.tail).map (RItem.digits :: ·)
                 else (parseRegexAux f1 rest2).map (RItem.digit :: ·))
              else if isMeta d = true then
                (parseRegexAux f1 rest2).map (RItem.ch d :: ·)
              else none) =
              (if d = 'd' then
                (if rest2.head? = some '+' then
                  (parseRegexAux f2 rest2.tail).map (RItem.digits :: ·)
                 else (parseRegexAux f2 rest2).map (RItem.digit :: ·))
              else if isMeta d = true then
                (parseRegexAux f2 rest2).map (RItem.ch d :: ·)
              else none)
            simp only [List.length_cons] at h1 h2
            by_cases hd : d = 'd'
            · rw [if_pos hd, if_pos hd]
              cases rest2 with
              | nil =>
                rw [if_neg (by simp), if_neg (by simp)]
                exact congrArg _ (ih f2 [] (by omega) (by omega))
              | cons e t =>
                simp only [List.length_cons] at h1 h2
                by_cases hplus : ((e :: t).head? = some '+')
                · rw [if_pos hplus, if_pos hplus]
                  exact congrArg _ (ih f2 t (by omega) (by omega))
                · rw [if_neg hplus, if_neg hplus]
                  exact congrArg _ (ih f2 (e :: t) (by simp only [List.length_cons]; omega)
                    (by simp only [List.length_cons]; omega))
            · rw [if_neg hd, if_neg hd]
              by_cases hm : isMeta d = true
              · rw [if_pos hm, if_pos hm]
                exact congrArg _ (ih f2 rest2 (by omega) (by omega))
              · rw [if_neg hm, if_neg hm]
        · rw [if_neg hbs, if_neg hbs]
          by_cases hp : c = '('
          · rw [if_pos hp, if_pos hp]
            cases hre : rest.drop (rest.takeWhile (fun d => d != ')')).length with
            | nil => rfl
            | cons y after =>
              show (if ((rest.takeWhile (fun d => d != ')')).all
                    (fun d => d == '|' || !isMeta d)) = true then
                  (parseRegexAux f1 after).map
                    (RItem.alts (splitBar (rest.takeWhile (fun d => d != ')'))) :: ·)
                else none) =
                (if ((rest.takeWhile (fun d => d != ')')).all
                    (fun d => d == '|' || !isMeta d)) = true then
                  (parseRegexAux f2 after).map
                    (RItem.alts (splitBar (rest.takeWhile (fun d => d != ')'))) :: ·)
                else none)
              have htk : (rest.takeWhile (fun d => d != ')')).length ≤ rest.length :=
                (List.takeWhile_prefix _).length_le
              have hlen : rest.length - (rest.takeWhile (fun d => d != ')')).length =
                  after.length + 1 := by
                have := congrArg List.length hre
                simpa using this
              by_cases hall : ((rest.takeWhile (fun d => d != ')')).all
                  (fun d => d == '|' || !isMeta d)) = true
              · rw [if_pos hall, if_pos hall]
                exact congrArg _ (ih f2 after (by omega) (by omega))
              · rw [if_neg hall, if_neg hall]
          · rw [if_neg hp, if_neg hp]
            by_cases hm : isMeta c = true
            · rw [if_pos hm, if_pos hm]
            · rw [if_neg hm, if_neg hm]
              exact congrArg _ (ih f2 rest h1 h2)

theorem parseRegex_nil : parseRegex [] = some [] := rfl

theorem parseRegexAux_succ_eq (k : Str) (extra : Nat) :
    parseRegexAux (k.length + extra) k = parseRegex k :=
  parseRegexAux_irrel _ _ k (by omega) le_rfl

theorem parseRegex_esc_meta {c : Char} (hm : isMeta c = true) (hd : c ≠ 'd') (k : Str) :
    parseRegex ('\\' :: c :: k) = (parseRegex k).map (RItem.ch c :: ·) := by
  unfold parseRegex
  rw [show ('\\' :: c :: k : Str).length = (k.length + 1) + 1 from by
    simp only [List.length_cons]]
  rw [parseRegexAux.eq_4]
  rw [if_pos rfl, if_neg hd, if_pos hm]
  exact congrArg _ (parseRegexAux_succ_eq k 1)

theorem parseRegex_digits (k : Str) :
    parseRegex ('\\' :: 'd' :: '+' :: k) = (parseRegex k).map (RItem.digits :: ·) := by
  unfold parseRegex
  rw [show ('\\' :: 'd' :: '+' :: k : Str).length = (k.length + 2) + 1 from by
    simp only [List.length_cons]]
  rw [parseRegexAux.eq_4]
  rw [if_pos rfl, if_pos rfl, if_pos (show (('+' :: k : Str).head? = some '+') from rfl)]
  exact congrArg _ (parseRegexAux_succ_eq k 2)

theorem parseRegex_plain {c : Char} (hm : isMeta c = false) (k : Str) :
    parseRegex (c :: k) = (parseRegex k).map (RItem.ch c :: ·) := by
  have hbs : ¬(c = '\\') := by
    intro h
    subst h
    exact absurd hm (by decide)
  have hp : ¬(c = '(') := by
    intro h
    subst h
    exact absurd hm (by decide)
  have hmm : ¬(isMeta c = true) := by simp [hm]
  unfold parseRegex
  cases k with
  | nil =>
    rw [show ([c] : Str).length = Nat.succ 0 from rfl, parseRegexAux.eq_3]
    rw [if_neg hbs, if_neg hp, if_neg hmm]
    rfl
  | cons d rest =>
    rw [show (c :: d :: rest : Str).length = ((d :: rest : Str).length) + 1 from by
      simp only [List.length_cons]]
    rw [parseRegexAux.eq_4]
    rw [if_neg hbs, if_neg hp, if_neg hmm]

theorem parseRegex_group {body k : Str}
    (hb : body.all (fun d => d == '|' || !isMeta d) = true) :
    parseRegex ('(' :: (body ++ ')' :: k)) =
      (parseRegex k).map (RItem.alts (splitBar body) :: ·) := by
  have hbody : ∀ c ∈ body, (c != ')') = true := by
    intro c hc
    have hcb := (List.all_eq_true.mp hb) c hc
    rw [Bool.or_eq_true] at hcb
    rcases hcb with h | h
    · have : c = '|' := by simpa using h
      subst this
      decide
    · have hmf : isMeta c = false := by simpa using h
      simp only [bne_iff_ne, ne_eq, decide_eq_true_eq]
      intro heq
      subst heq
      exact absurd hmf (by decide)
  have htw : (body ++ ')' :: k).takeWhile (fun d => d != ')') = body :=
    takeWhile_append_stop hbody (by decide)
  unfold parseRegex
  cases hB : body ++ ')' :: k with
  | nil => exact absurd (congrArg List.length hB) (by simp)
  | cons b bs =>
    rw [show ('(' :: (b :: bs) : Str).length = ((b :: bs : Str).length) + 1 from by
      simp only [List.length_cons]]
    rw [parseRegexAux.eq_4]
    rw [if_neg (show ¬(('(' : Char) = '\\') from by decide), if_pos rfl]
    rw [← hB, htw, List.drop_left body (')' :: k)]
    simp only [hb, if_true]
    congr 1
    rw [show (body ++ ')' :: k : Str).length = k.length + (body.length + 1) from by
      simp only [List.length_append, List.length_cons]; omega]
    exact parseRegexAux_succ_eq k (body.length + 1)

theorem escapeRegex_cons (c : Char) (s : Str) :
    escapeRegex (c :: s) = escChar c ++ escapeRegex s := by
  simp [escapeRegex]

theorem parseRegex_escape_append (s k : Str) :
    parseRegex (escapeRegex s ++ k) = (parseRegex k).map (fun r => s.map RItem.ch ++ r) := by
  induction s with
  | nil =>
    show parseRegex k = _
    cases parseRegex k <;> rfl
  | cons c s ih =>
    rw [escapeRegex_cons, List.append_assoc]
    by_cases hm : isMeta c = true
    · rw [show escChar c = ['\\', c] from by simp [escChar, hm]]
      have hd : c ≠ 'd' := by
        intro h
        subst h
        exact absurd hm (by decide)
      rw [show (['\\', c] : Str) ++ (escapeRegex s ++ k) = '\\' :: c :: (escapeRegex s ++ k) from rfl]
      rw [parseRegex_esc_meta hm hd, ih, Option.map_map]
      cases parseRegex k <;> simp
    · have hm' : isMeta c = false := by simpa using hm
      rw [show escChar c = [c] from by simp [escChar, hm']]
      rw [show ([c] : Str) ++ (escapeRegex s ++ k) = c :: (escapeRegex s ++ k) from rfl]
      rw [parseRegex_plain hm', ih, Option.map_map]
      cases parseRegex k <;> simp

theorem splitBar_no_bar {x : Str} (h : '|' ∉ x) : splitBar x = [x] := by
  induction x with
  | nil => rfl
  | cons c t ih =>
    have hc : ¬(c = '|') := fun hc => h (hc ▸ List.mem_cons_self c t)
    have ht : '|' ∉ t := fun hm => h (List.mem_cons_of_mem _ hm)
    simp only [splitBar, if_neg hc, ih ht]

theorem splitBar_append_bar {x rest : Str} (h : '|' ∉ x) :
    splitBar (x ++ '|' :: rest) = x :: splitBar rest := by
  induction x with
  | nil => simp [splitBar]
  | cons c t ih =>
    have hc : ¬(c = '|') := fun hc => h (hc ▸ List.mem_cons_self c t)
    have ht : '|' ∉ t := fun hm => h (List.mem_cons_of_mem _ hm)
    rw [List.cons_append]
    simp only [splitBar, if_neg hc]
    rw [ih ht]

theorem splitBar_joinBar {ws : List Str} (hne : ws ≠ [])
    (h : ∀ w ∈ ws, '|' ∉ w) : splitBar (joinBar ws) = ws := by
  induction ws with
  | nil => exact absurd rfl hne
  | cons w ws ih =>
    cases ws with
    | nil => exact splitBar_no_bar (h w (by simp))
    | cons w' ws' =>
      rw [show joinBar (w :: w' :: ws') = w ++ '|' :: joinBar (w' :: ws') from rfl]
      rw [splitBar_append_bar (h w (by simp))]
      rw [ih (by simp) (fun v hv => h v (List.mem_cons_of_mem _ hv))]

theorem mem_joinBar {c : Char} {ws : List Str} (h : c ∈ joinBar ws) :
    c = '|' ∨ ∃ w ∈ ws, c ∈ w := by
  induction ws with
  | nil => cases h
  | cons w ws ih =>
    cases ws with
    | nil => exact Or.inr ⟨w, by simp, h⟩
    | cons w' ws' =>
      rw [show joinBar (w :: w' :: ws') = w ++ '|' :: joinBar (w' :: ws') from rfl] at h
      rcases List.mem_append.mp h with h | h
      · exact Or.inr ⟨w, by simp, h⟩
      · rcases List.mem_cons.mp h with rfl | h
        · exact Or.inl rfl
        · rcases ih h with h | ⟨v, hv, hc⟩
          · exact Or.inl h
          · exact Or.inr ⟨v, List.mem_cons_of_mem _ hv, hc⟩

theorem natToStrAux_irrel : ∀ n f1 f2, n < f1 → n < f2 →
    natToStrAux f1 n = natToStrAux f2 n := by
  intro n
  induction n using Nat.strong_induction_on with
  | _ n ih =>
    intro f1 f2 h1 h2
    cases f1 with
    | zero => omega
    | succ f1 =>
      cases f2 with
      | zero => omega
      | succ f2 =>
        simp only [natToStrAux]
        by_cases hn : n < 10
        · rw [if_pos hn, if_pos hn]
        · rw [if_neg hn, if_neg hn]
          have hd : n / 10 < n := Nat.div_lt_self (by omega) (by omega)
          rw [ih (n / 10) hd f1 f2 (by omega) (by omega)]

theorem natToStr_unfold_ge {n : Nat} (h : 10 ≤ n) :
    natToStr n = natToStr (n / 10) ++ [digitChar (n % 10)] := by
  unfold natToStr
  rw [show natToStrAux (n + 1) n = if n < 10 then [digitChar n]
      else natToStrAux n (n / 10) ++ [digitChar (n % 10)] from rfl]
  rw [if_neg (by omega)]
  have hd : n / 10 < n := Nat.div_lt_self (by omega) (by omega)
  rw [natToStrAux_irrel (n / 10) n (n / 10 + 1) hd (by omega)]

theorem natToStr_lt_ten {n : Nat} (h : n < 10) : natToStr n = [digitChar n] := by
  unfold natToStr
  rw [show natToStrAux (n + 1) n = if n < 10 then [digitChar n]
      else natToStrAux n (n / 10) ++ [digitChar (n % 10)] from rfl]
  rw [if_pos h]

theorem digitChar_isDigit {n : Nat} (h : n < 10) : (digitChar n).isDigit = true := by
  interval_cases n <;> decide

theorem natToStr_digits (n : Nat) :
    natToStr n ≠ [] ∧ (natToStr n).all Char.isDigit = true := by
  induction n using Nat.strong_induction_on with
  | _ n ih =>
    by_cases hn : n < 10
    · rw [natToStr_lt_ten hn]
      exact ⟨by simp, by simp [digitChar_isDigit hn]⟩
    · rw [natToStr_unfold_ge (by omega)]
      have hd : n / 10 < n := Nat.div_lt_self (by omega) (by omega)
      rcases ih (n / 10) hd with ⟨h1, h2⟩
      refine ⟨by simp, ?_⟩
      rw [List.all_append]
      simp [h2, digitChar_isDigit (Nat.mod_lt n (by omega))]

theorem rmatchPre_lits (xs : Str) (ps : List RItem) (s : Str) :
    rmatchPre (xs.map RItem.ch ++ ps) (xs ++ s) = rmatchPre ps s := by
  induction xs with
  | nil => rfl
  | cons c xs ih =>
    rw [List.map_cons, List.cons_append, List.cons_append]
    show (c == c && rmatchPre (xs.map RItem.ch ++ ps) (xs ++ s)) = _
    simp [ih]

theorem rmatchPre_digits_cons {ds : Str} (ps : List RItem) (s : Str)
    (hne : ds ≠ []) (hdig : ds.all Char.isDigit = true) (h : rmatchPre ps s = true) :
    rmatchPre (RItem.digits :: ps) (ds ++ s) = true := by
  have hpos : 1 ≤ ds.length := by
    cases ds with
    | nil => exact absurd rfl hne
    | cons a b => simp
  show (List.range (ds ++ s).length).any (fun k =>
      ((ds ++ s).take (k + 1)).all Char.isDigit && rmatchPre ps ((ds ++ s).drop (k + 1))) = true
  rw [List.any_eq_true]
  refine ⟨ds.length - 1, List.mem_range.mpr (by simp [List.length_append]; omega), ?_⟩
  rw [show ds.length - 1 + 1 = ds.length from by omega]
  rw [List.take_left ds s, List.drop_left ds s]
  simp [hdig, h]

theorem rmatchPre_alts_cons {w : Str} {ws : List Str} (ps : List RItem) (s : Str)
    (hw : w ∈ ws) (h : rmatchPre ps s = true) :
    rmatchPre (RItem.alts ws :: ps) (w ++ s) = true := by
  show ws.any (fun v => v.isPrefixOf (w ++ s) && rmatchPre ps ((w ++ s).drop v.length)) = true
  rw [List.any_eq_true]
  refine ⟨w, hw, ?_⟩
  rw [List.drop_left w s]
  simp [h, List.isPrefixOf_iff_prefix, List.prefix_append]

theorem rtest_of_rmatchPre {r : List RItem} {s : Str} (h : rmatchPre r s = true) :
    rtest r s = true := by
  unfold rtest
  rw [List.any_eq_true]
  refine ⟨s, ?_, h⟩
  cases s with
  | nil => simp [List.tails]
  | cons c t =>
    rw [List.tails_cons]
    exact List.mem_cons_self _ _

/-- C9: a `re:` item is resolved with unanchored matching — every universe
path on which the compiled pattern tests positive anywhere (`rtest`, the
some-substring-matches semantics of `RegExp.test`) is added, whether or
not the whole path matches — so a rule of the emitted form
`re:<prefix>\d+<suffix>` can resolve to paths outside the template it was
emitted for: over the universe `{a.0.b, xa.0.b}` the rule emitted for the
selection `{a.0.b}` resolves to the longer path `xa.0.b` as well, although
the pattern does not match `xa.0.b` as a whole and `xa.0.b` does not even
start with the template prefix `a.`. -/
theorem claim_C9_unanchored_regex :
    (∀ (univ : List Str) (pat : Str) (r : List RItem) (p : Str), p ∈ univ →
      (∀ c ∈ pat, isQuote c = false ∧ c ≠ ']') →
      parseRegex pat = some r → rtest r p = true →
      p ∈ parseIgnoreItems ('[' :: ((dq :: ((reMark ++ pat) ++ [dq])) ++ ']' :: []))
        univ) ∧
    parseRegex "a\\.\\d+\\.b".toList =
      some [RItem.ch 'a', RItem.ch '.', RItem.digits, RItem.ch '.', RItem.ch 'b'] ∧
    rmatchFull [RItem.ch 'a', RItem.ch '.', RItem.digits, RItem.ch '.', RItem.ch 'b']
      "xa.0.b".toList = false ∧
    rtest [RItem.ch 'a', RItem.ch '.', RItem.digits, RItem.ch '.', RItem.ch 'b']
      "xa.0.b".toList = true ∧
    (optimizeSelection ["a.0.b".toList] ["a.0.b".toList, "xa.0.b".toList]).2 =
      ["re:a\\.\\d+\\.b".toList] ∧
    "xa.0.b".toList ∈ parseIgnoreItems
      (formatIgnoreList (optimizeSelection ["a.0.b".toList]
        ["a.0.b".toList, "xa.0.b".toList]).2)
      ["a.0.b".toList, "xa.0.b".toList] ∧
    List.isPrefixOf "a.".toList "xa.0.b".toList = false := by
  refine ⟨?_, by decide, by decide, by decide, by decide, by decide, by decide⟩
  intro univ pat r p hp hpat hparse htest
  unfold parseIgnoreItems
  rw [bracketInner_found (by
    intro hm
    have hin : ']' ∈ pat := by
      rcases List.mem_cons.mp hm with heq | hm2
      · exact absurd heq (by decide)
      rcases List.mem_append.mp hm2 with hm3 | hm3
      · rcases List.mem_append.mp hm3 with hm4 | hm4
        · rcases List.mem_cons.mp hm4 with heq | hm5
          · exact absurd heq (by decide)
          rcases List.mem_cons.mp hm5 with heq | hm6
          · exact absurd heq (by decide)
          rcases List.mem_cons.mp hm6 with heq | hm7
          · exact absurd heq (by decide)
          · exact absurd hm7 (by simp)
        · exact hm4
      · rcases List.mem_cons.mp hm3 with heq | hm4
        · exact absurd heq (by decide)
        · exact absurd hm4 (by simp)
    exact (hpat _ hin).2 rfl)]
  show p ∈ resolveItems (extractQuoted (dq :: ((reMark ++ pat) ++ [dq]))) univ
  rw [extractQuoted_item (by decide) (by decide) (by simp [reMark])
    (by
      intro c hc
      rcases List.mem_append.mp hc with hm | hm
      · rcases List.mem_cons.mp hm with rfl | hm2
        · decide
        rcases List.mem_cons.mp hm2 with rfl | hm3
        · decide
        rcases List.mem_cons.mp hm3 with rfl | hm4
        · decide
        · exact absurd hm4 (by simp)
      · exact (hpat c hm).1)]
  refine mem_resolveItems.mpr ⟨reMark ++ pat, by simp, hp, ?_⟩
  rw [if_pos (List.isPrefixOf_iff_prefix.mpr (List.prefix_append reMark pat))]
  rw [show (3 : Nat) = reMark.length from rfl, List.drop_left reMark pat]
  exact ⟨r, hparse, htest⟩

/-- C9 witness: the general clause applied to a one-path universe and the
pattern `ab`. -/
theorem claim_C9_witness :
    "ab".toList ∈ parseIgnoreItems
      ('[' :: ((dq :: ((reMark ++ "ab".toList) ++ [dq])) ++ ']' :: []))
      ["ab".toList] :=
  claim_C9_unanchored_regex.1 ["ab".toList] "ab".toList
    [RItem.ch 'a', RItem.ch 'b'] "ab".toList (by decide) (by decide) (by decide)
    (by decide)

theorem wfPath_spec {p : Str} (h : wfPath p = true) :
    p ≠ [] ∧ (∀ c ∈ p, isQuote c = false ∧ c ≠ ']' ∧ c ≠ '{') ∧
      reMark.isPrefixOf p = false := by
  unfold wfPath at h
  rw [Bool.and_eq_true, Bool.and_eq_true] at h
  obtain ⟨⟨h1, h2⟩, h3⟩ := h
  refine ⟨by simpa using h1, ?_, by simpa using h3⟩
  intro c hc
  have hbc := (List.all_eq_true.mp h2) c hc
  have hnm : c ∉ badChars := by simpa using hbc
  simp only [badChars, List.mem_cons, List.not_mem_nil, or_false, not_or] at hnm
  obtain ⟨hq1, hq2, hq3, hq4⟩ := hnm
  exact ⟨by simp [isQuote, hq1, hq2], hq3, hq4⟩

theorem optimizeSelection_snd {sel univ : List Str} (h : sel ≠ []) :
    (optimizeSelection sel univ).2 =
      nonTemplated sel ++
        ((groupsOf sel).map (fun g => emitGroup (countTemplate univ g.tmpl) g)).flatten := by
  unfold optimizeSelection
  rw [if_neg (by simpa using h)]

theorem drop_takeWhile_length (p : Char → Bool) (l : Str) :
    l.drop (l.takeWhile p).length = l.dropWhile p := by
  induction l with
  | nil => rfl
  | cons c t ih =>
    by_cases hc : p c = true
    · simp [List.takeWhile_cons, List.dropWhile_cons, hc, ih]
    · simp only [List.takeWhile_cons, List.dropWhile_cons, hc]
      simp

theorem all_takeWhile (p : Char → Bool) (l : Str) :
    (l.takeWhile p).all p = true := by
  rw [List.all_eq_true]
  exact fun x hx => List.mem_takeWhile_imp hx

theorem toTemplate_spec {p pre ds suf : Str} (h : toTemplate p = some (pre, ds, suf)) :
    p = pre ++ ds ++ suf ∧ ds ≠ [] ∧ ds.all Char.isDigit = true := by
  unfold toTemplate at h
  obtain ⟨i, _, htry⟩ := List.exists_of_findSome?_eq_some h
  unfold tryAt at htry
  by_cases hcond : 2 ≤ i ∧ i ≤ p.length ∧ (p.take i).getLast? = some '.'
  · rw [if_pos hcond] at htry
    simp only at htry
    by_cases hcond2 : (p.drop i).takeWhile Char.isDigit ≠ [] ∧
        ((p.drop i).drop ((p.drop i).takeWhile Char.isDigit).length).head? = some '.' ∧
        2 ≤ ((p.drop i).drop ((p.drop i).takeWhile Char.isDigit).length).length
    · rw [if_pos hcond2] at htry
      rw [Option.some_inj, Prod.mk.injEq, Prod.mk.injEq] at htry
      obtain ⟨h1, h2, h3⟩ := htry
      subst h1 h2 h3
      refine ⟨?_, hcond2.1, all_takeWhile _ _⟩
      rw [List.append_assoc, drop_takeWhile_length, List.takeWhile_append_dropWhile,
        List.take_append_drop]
    · rw [if_neg hcond2] at htry
      cases htry
  · rw [if_neg hcond] at htry
    cases htry

theorem mem_addIdx_self (gs : List TGroup) (t pre suf : Str) (i : Nat) :
    ∃ g ∈ addIdx gs t pre suf i, g.tmpl = t ∧ i ∈ g.idxs := by
  induction gs with
  | nil => exact ⟨⟨t, pre, suf, [i]⟩, by simp [addIdx], rfl, by simp⟩
  | cons g gs ih =>
    by_cases hg : g.tmpl = t
    · refine ⟨⟨g.tmpl, g.pre, g.suf, g.idxs ++ [i]⟩, ?_, hg, by simp⟩
      rw [show addIdx (g :: gs) t pre suf i =
        (⟨g.tmpl, g.pre, g.suf, g.idxs ++ [i]⟩ : TGroup) :: gs from by simp [addIdx, hg]]
      exact List.mem_cons_self _ _
    · obtain ⟨g', hg', ht, hi⟩ := ih
      refine ⟨g', ?_, ht, hi⟩
      rw [show addIdx (g :: gs) t pre suf i = g :: addIdx gs t pre suf i from by
        simp [addIdx, hg]]
      exact List.mem_cons_of_mem _ hg'

theorem mem_addIdx_mono {gs : List TGroup} {g : TGroup} (hg : g ∈ gs)
    (t pre suf : Str) (i : Nat) :
    ∃ g' ∈ addIdx gs t pre suf i, g'.tmpl = g.tmpl ∧ g'.pre = g.pre ∧ g'.suf = g.suf ∧
      ∀ x ∈ g.idxs, x ∈ g'.idxs := by
  induction gs with
  | nil => cases hg
  | cons h gs ih =>
    by_cases hh : h.tmpl = t
    · rw [show addIdx (h :: gs) t pre suf i =
        (⟨h.tmpl, h.pre, h.suf, h.idxs ++ [i]⟩ : TGroup) :: gs from by simp [addIdx, hh]]
      rcases List.mem_cons.mp hg with rfl | hg'
      · exact ⟨⟨g.tmpl, g.pre, g.suf, g.idxs ++ [i]⟩, List.mem_cons_self _ _, rfl, rfl, rfl,
          fun x hx => by simp [hx]⟩
      · exact ⟨g, List.mem_cons_of_mem _ hg', rfl, rfl, rfl, fun x hx => hx⟩
    · rw [show addIdx (h :: gs) t pre suf i = h :: addIdx gs t pre suf i from by
        simp [addIdx, hh]]
      rcases List.mem_cons.mp hg with rfl | hg'
      · exact ⟨g, List.mem_cons_self _ _, rfl, rfl, rfl, fun x hx => hx⟩
      · obtain ⟨g', hg'', h1, h2, h3, h4⟩ := ih hg'
        exact ⟨g', List.mem_cons_of_mem _ hg'', h1, h2, h3, h4⟩

theorem groupStep_mono {gs : List TGroup} {g : TGroup} (hg : g ∈ gs) (p : Str) :
    ∃ g' ∈ groupStep gs p, g'.tmpl = g.tmpl ∧ g'.pre = g.pre ∧ g'.suf = g.suf ∧
      ∀ x ∈ g.idxs, x ∈ g'.idxs := by
  unfold groupStep
  cases toTemplate p with
  | none => exact ⟨g, hg, rfl, rfl, rfl, fun x hx => hx⟩
  | some pds =>
    obtain ⟨pre, ds, suf⟩ := pds
    exact mem_addIdx_mono hg _ _ _ _

theorem foldl_groupStep_mono : ∀ (l : List Str) (gs : List TGroup) (g : TGroup), g ∈ gs →
    ∃ g' ∈ l.foldl groupStep gs, g'.tmpl = g.tmpl ∧ g'.pre = g.pre ∧ g'.suf = g.suf ∧
      ∀ x ∈ g.idxs, x ∈ g'.idxs := by
  intro l
  induction l with
  | nil => exact fun gs g hg => ⟨g, hg, rfl, rfl, rfl, fun x hx => hx⟩
  | cons p l ih =>
    intro gs g hg
    obtain ⟨g1, hg1, ht1, hp1, hs1, hi1⟩ := groupStep_mono hg p
    obtain ⟨g2, hg2, ht2, hp2, hs2, hi2⟩ := ih (groupStep gs p) g1 hg1
    exact ⟨g2, hg2, ht2.trans ht1, hp2.trans hp1, hs2.trans hs1,
      fun x hx => hi2 x (hi1 x hx)⟩

theorem groupsOf_complete {sel : List Str} {p pre ds suf : Str} (hp : p ∈ sel)
    (htpl : toTemplate p = some (pre, ds, suf)) :
    ∃ g ∈ groupsOf sel, g.tmpl = templateKey pre suf ∧ strToNat ds ∈ g.idxs := by
  unfold groupsOf
  suffices h : ∀ (l : List Str) (gs : List TGroup), p ∈ l →
      ∃ g ∈ l.foldl groupStep gs, g.tmpl = templateKey pre suf ∧ strToNat ds ∈ g.idxs from
    h sel [] hp
  intro l
  induction l with
  | nil => intro gs h; cases h
  | cons q l ih =>
    intro gs hq
    rcases List.mem_cons.mp hq with rfl | hq'
    · obtain ⟨g0, hg0, ht0, hi0⟩ : ∃ g ∈ groupStep gs p,
          g.tmpl = templateKey pre suf ∧ strToNat ds ∈ g.idxs := by
        unfold groupStep
        rw [htpl]
        exact mem_addIdx_self gs _ pre suf (strToNat ds)
      obtain ⟨g', hg', ht', _, _, hi'⟩ := foldl_groupStep_mono l (groupStep gs p) g0 hg0
      exact ⟨g', hg', ht'.trans ht0, hi' _ hi0⟩
    · exact ih (groupStep gs q) hq'

theorem mem_addIdx_src {gs : List TGroup} {g' : TGroup} {t pre suf : Str} {i : Nat}
    (h : g' ∈ addIdx gs t pre suf i) :
    (∃ g ∈ gs, g'.pre = g.pre ∧ g'.suf = g.suf ∧ g'.tmpl = g.tmpl) ∨
      (g'.pre = pre ∧ g'.suf = suf ∧ g'.tmpl = t) := by
  induction gs with
  | nil =>
    simp only [addIdx, List.mem_singleton] at h
    subst h
    exact Or.inr ⟨rfl, rfl, rfl⟩
  | cons g gs ih =>
    by_cases hg : g.tmpl = t
    · rw [show addIdx (g :: gs) t pre suf i =
        (⟨g.tmpl, g.pre, g.suf, g.idxs ++ [i]⟩ : TGroup) :: gs from by simp [addIdx, hg]] at h
      rcases List.mem_cons.mp h with rfl | h'
      · exact Or.inl ⟨g, List.mem_cons_self _ _, rfl, rfl, rfl⟩
      · exact Or.inl ⟨g', List.mem_cons_of_mem _ h', rfl, rfl, rfl⟩
    · rw [show addIdx (g :: gs) t pre suf i = g :: addIdx gs t pre suf i from by
        simp [addIdx, hg]] at h
      rcases List.mem_cons.mp h with rfl | h'
      · exact Or.inl ⟨g', List.mem_cons_self _ _, rfl, rfl, rfl⟩
      · rcases ih h' with ⟨g0, hg0, h1, h2, h3⟩ | hr
        · exact Or.inl ⟨g0, List.mem_cons_of_mem _ hg0, h1, h2, h3⟩
        · exact Or.inr hr

theorem foldl_groupStep_src : ∀ (l : List Str) (gs : List TGroup) (g' : TGroup),
    g' ∈ l.foldl groupStep gs →
    (∃ g ∈ gs, g'.pre = g.pre ∧ g'.suf = g.suf ∧ g'.tmpl = g.tmpl) ∨
      (∃ q ∈ l, ∃ ds, toTemplate q = some (g'.pre, ds, g'.suf) ∧
        g'.tmpl = templateKey g'.pre g'.suf) := by
  intro l
  induction l with
  | nil =>
    intro gs g' h
    exact Or.inl ⟨g', h, rfl, rfl, rfl⟩
  | cons p l ih =>
    intro gs g' h
    rcases ih (groupStep gs p) g' h with ⟨g, hg, hp, hs, ht⟩ | ⟨q, hq, ds, htq, hkey⟩
    · unfold groupStep at hg
      cases htpl : toTemplate p with
      | none =>
        rw [htpl] at hg
        exact Or.inl ⟨g, hg, hp, hs, ht⟩
      | some pds =>
        obtain ⟨ppre, pds', psuf⟩ := pds
        rw [htpl] at hg
        rcases mem_addIdx_src hg with ⟨g0, hg0, h1, h2, h3⟩ | ⟨h1, h2, h3⟩
        · exact Or.inl ⟨g0, hg0, hp.trans h1, hs.trans h2, ht.trans h3⟩
        · refine Or.inr ⟨p, List.mem_cons_self _ _, pds', ?_, ?_⟩
          · rw [hp.trans h1, hs.trans h2]
            exact htpl
          · rw [hp.trans h1, hs.trans h2]
            exact ht.trans h3
    · exact Or.inr ⟨q, List.mem_cons_of_mem _ hq, ds, htq, hkey⟩

theorem groupsOf_src {sel : List Str} {g : TGroup} (h : g ∈ groupsOf sel) :
    ∃ q ∈ sel, ∃ ds, toTemplate q = some (g.pre, ds, g.suf) ∧
      g.tmpl = templateKey g.pre g.suf := by
  rcases foldl_groupStep_src sel [] g h with ⟨g0, hg0, _⟩ | hr
  · cases hg0
  · exact hr

theorem templateKey_lt_absurd {pre suf pre' suf' : Str} (h2 : '{' ∉ pre')
    (h : pre ++ (placeholder ++ suf) = pre' ++ (placeholder ++ suf'))
    (hlt : pre.length < pre'.length) : False := by
  have hq := congrArg (fun l : Str => l[pre.length]?) h
  simp only at hq
  rw [List.getElem?_append_right (le_refl pre.length)] at hq
  rw [Nat.sub_self] at hq
  have hleft : (placeholder ++ suf)[0]? = some '{' := rfl
  rw [hleft] at hq
  rw [List.getElem?_append, if_pos hlt] at hq
  have hmem : '{' ∈ pre' := by
    have := List.getElem?_eq_some_iff.mp hq.symm
    obtain ⟨hb, hget⟩ := this
    exact hget ▸ List.getElem_mem hb
  exact h2 hmem

theorem templateKey_inj {pre suf pre' suf' : Str}
    (h1 : '{' ∉ pre) (h2 : '{' ∉ pre')
    (h : templateKey pre suf = templateKey pre' suf') : pre = pre' ∧ suf = suf' := by
  unfold templateKey at h
  rw [List.append_assoc, List.append_assoc] at h
  have hlen : pre.length = pre'.length := by
    rcases Nat.lt_trichotomy pre.length pre'.length with hlt | heq | hgt
    · exact absurd (templateKey_lt_absurd h2 h hlt) not_false
    · exact heq
    · exact absurd (templateKey_lt_absurd h1 h.symm hgt) not_false
  obtain ⟨hpre, hrest⟩ := List.append_inj h hlen
  exact ⟨hpre, List.append_cancel_left hrest⟩

theorem digit_not_meta {c : Char} (h : Char.isDigit c = true) : isMeta c = false := by
  by_contra hm
  have hm' : isMeta c = true := by simpa using hm
  unfold isMeta at hm'
  have hmem : c ∈ metaChars := by simpa using hm'
  simp only [metaChars, List.mem_cons, List.not_mem_nil, or_false] at hmem
  rcases hmem with rfl | rfl | rfl | rfl | rfl | rfl | rfl | rfl | rfl | rfl | rfl | rfl |
    rfl | rfl <;> exact absurd h (by decide)

theorem digit_not_quote {c : Char} (h : Char.isDigit c = true) : isQuote c = false := by
  by_contra hq
  have hq' : isQuote c = true := by simpa using hq
  unfold isQuote at hq'
  rw [Bool.or_eq_true] at hq'
  rcases hq' with h' | h'
  · have : c = dq := by simpa using h'
    subst this
    exact absurd h (by decide)
  · have : c = squote := by simpa using h'
    subst this
    exact absurd h (by decide)

theorem digit_ne_bracket {c : Char} (h : Char.isDigit c = true) : c ≠ ']' := by
  intro heq
  subst heq
  exact absurd h (by decide)

theorem parseRegex_wildcard (pre suf : Str) :
    parseRegex (escapeRegex pre ++ (wildcardPat ++ escapeRegex suf)) =
      some (pre.map RItem.ch ++ RItem.digits :: suf.map RItem.ch) := by
  rw [parseRegex_escape_append]
  rw [show wildcardPat ++ escapeRegex suf = '\\' :: 'd' :: '+' :: escapeRegex suf from rfl]
  rw [parseRegex_digits]
  rw [show escapeRegex suf = escapeRegex suf ++ ([] : Str) from (List.append_nil _).symm,
    parseRegex_escape_append, parseRegex_nil]
  simp

theorem parseRegex_alternation (pre suf : Str) (ws : List Str) (hne : ws ≠ [])
    (hws : ∀ w ∈ ws, w ≠ [] ∧ w.all Char.isDigit = true) :
    parseRegex (escapeRegex pre ++ ('(' :: (joinBar ws ++ ')' :: escapeRegex suf))) =
      some (pre.map RItem.ch ++ RItem.alts ws :: suf.map RItem.ch) := by
  have hbody : (joinBar ws).all (fun d => d == '|' || !isMeta d) = true := by
    rw [List.all_eq_true]
    intro c hc
    rcases mem_joinBar hc with rfl | ⟨w, hw, hcw⟩
    · simp
    · have hd := (List.all_eq_true.mp (hws w hw).2) c hcw
      simp [digit_not_meta hd]
  rw [parseRegex_escape_append]
  rw [parseRegex_group hbody]
  rw [splitBar_joinBar hne (fun w hw => fun hbar => by
    have hd := (List.all_eq_true.mp (hws w hw).2) '|' hbar
    simp [Char.isDigit] at hd)]
  rw [show escapeRegex suf = escapeRegex suf ++ ([] : Str) from (List.append_nil _).symm,
    parseRegex_escape_append, parseRegex_nil]
  simp

theorem rmatchPre_lits_self (xs : Str) : rmatchPre (xs.map RItem.ch) xs = true := by
  have := rmatchPre_lits xs [] []
  simpa using this

theorem mem_escapeRegex {c : Char} {s : Str} (h : c ∈ escapeRegex s) :
    c = '\\' ∨ c ∈ s := by
  unfold escapeRegex at h
  rcases List.mem_flatten.mp h with ⟨piece, hpiece, hc⟩
  rcases List.mem_map.mp hpiece with ⟨d, hd, rfl⟩
  unfold escChar at hc
  split at hc
  · rcases List.mem_cons.mp hc with rfl | hc'
    · exact Or.inl rfl
    · rcases List.mem_cons.mp hc' with rfl | hc''
      · exact Or.inr hd
      · cases hc''
  · rcases List.mem_cons.mp hc with rfl | hc'
    · exact Or.inr hd
    · cases hc'

theorem wf_item_c {c : Char} (h : isQuote c = false ∧ c ≠ ']' ∧ c ≠ '{') :
    isQuote c = false ∧ c ≠ ']' := ⟨h.1, h.2.1⟩

theorem digit_str_item_wf {w : Str} (h : w.all Char.isDigit = true) :
    ∀ c ∈ w, isQuote c = false ∧ c ≠ ']' := by
  intro c hc
  have hd := (List.all_eq_true.mp h) c hc
  exact ⟨digit_not_quote hd, digit_ne_bracket hd⟩

theorem optimized_items_wf {sel univ : List Str}
    (hwf : ∀ p ∈ sel, wfPath p = true) :
    ∀ item ∈ (optimizeSelection sel univ).2,
      item ≠ [] ∧ (∀ c ∈ item, isQuote c = false) ∧ ']' ∉ item := by
  intro item hitem
  have hne : sel ≠ [] := by
    intro h
    subst h
    simp [optimizeSelection] at hitem
  rw [optimizeSelection_snd hne] at hitem
  have mk : ∀ l : Str, (∀ c ∈ l, isQuote c = false ∧ c ≠ ']') →
      (∀ c ∈ l, isQuote c = false) ∧ ']' ∉ l := by
    intro l hl
    refine ⟨fun c hc => (hl c hc).1, fun hm => (hl ']' hm).2 rfl⟩
  rcases List.mem_append.mp hitem with hmem | hmem
  · have hps := List.mem_filter.mp hmem
    obtain ⟨hne, hchars, _⟩ := wfPath_spec (hwf item hps.1)
    exact ⟨hne, mk item (fun c hc => wf_item_c (hchars c hc))⟩
  · rcases List.mem_flatten.mp hmem with ⟨block, hblock, hitem2⟩
    rcases List.mem_map.mp hblock with ⟨g, hg, rfl⟩
    obtain ⟨q, hq, dsq, htq, _⟩ := groupsOf_src hg
    obtain ⟨hqeq, _, _⟩ := toTemplate_spec htq
    obtain ⟨_, hqchars, _⟩ := wfPath_spec (hwf q hq)
    have hpre : ∀ c ∈ g.pre, isQuote c = false ∧ c ≠ ']' := by
      intro c hc
      exact wf_item_c (hqchars c (hqeq ▸ List.mem_append_left _ (List.mem_append_left _ hc)))
    have hsuf : ∀ c ∈ g.suf, isQuote c = false ∧ c ≠ ']' := by
      intro c hc
      exact wf_item_c (hqchars c (hqeq ▸ List.mem_append_right _ hc))
    have hesc : ∀ s : Str, (∀ c ∈ s, isQuote c = false ∧ c ≠ ']') →
        ∀ c ∈ escapeRegex s, isQuote c = false ∧ c ≠ ']' := by
      intro s hs c hc
      rcases mem_escapeRegex hc with rfl | hc'
      · exact ⟨by decide, by decide⟩
      · exact hs c hc'
    unfold emitGroup at hitem2
    by_cases hfull : (sortIns natLeB g.idxs).length = countTemplate univ g.tmpl
    · rw [if_pos hfull, List.mem_singleton] at hitem2
      subst hitem2
      refine ⟨by simp [reMark], mk _ ?_⟩
      intro c hc
      rcases List.mem_append.mp hc with hc | hc
      · rcases List.mem_append.mp hc with hc | hc
        · rcases List.mem_append.mp hc with hc | hc
          · rcases List.mem_cons.mp hc with rfl | hc
            · exact ⟨by decide, by decide⟩
            rcases List.mem_cons.mp hc with rfl | hc
            · exact ⟨by decide, by decide⟩
            rcases List.mem_cons.mp hc with rfl | hc
            · exact ⟨by decide, by decide⟩
            · cases hc
          · exact hesc _ hpre c hc
        · rcases List.mem_cons.mp hc with rfl | hc
          · exact ⟨by decide, by decide⟩
          rcases List.mem_cons.mp hc with rfl | hc
          · exact ⟨by decide, by decide⟩
          rcases List.mem_cons.mp hc with rfl | hc
          · exact ⟨by decide, by decide⟩
          · cases hc
      · exact hesc _ hsuf c hc
    · rw [if_neg hfull] at hitem2
      by_cases hfew : (sortIns natLeB g.idxs).length ≤ 3
      · rw [if_pos hfew] at hitem2
        rcases List.mem_map.mp hitem2 with ⟨i, _, rfl⟩
        have hmid := natToStr_digits i
        refine ⟨by simp [hmid.1], mk _ ?_⟩
        intro c hc
        rcases List.mem_append.mp hc with hc | hc
        · rcases List.mem_append.mp hc with hc | hc
          · exact hpre c hc
          · exact digit_str_item_wf hmid.2 c hc
        · exact hsuf c hc
      · rw [if_neg hfew] at hitem2
        have halt : item = reMark ++ escapeRegex g.pre ++
            '(' :: joinBar ((sortIns natLeB g.idxs).map natToStr) ++
            ')' :: escapeRegex g.suf := by
          by_cases hcont : isContiguous (sortIns natLeB g.idxs) = true
          · rw [if_pos hcont, List.mem_singleton] at hitem2
            exact hitem2
          · rw [if_neg hcont, List.mem_singleton] at hitem2
            exact hitem2
        subst halt
        refine ⟨by simp [reMark], mk _ ?_⟩
        intro c hc
        rcases List.mem_append.mp hc with hc | hc
        · rcases List.mem_append.mp hc with hc | hc
          · rcases List.mem_append.mp hc with hc | hc
            · rcases List.mem_cons.mp hc with rfl | hc
              · exact ⟨by decide, by decide⟩
              rcases List.mem_cons.mp hc with rfl | hc
              · exact ⟨by decide, by decide⟩
              rcases List.mem_cons.mp hc with rfl | hc
              · exact ⟨by decide, by decide⟩
              · cases hc
            · exact hesc _ hpre c hc
          · rcases List.mem_cons.mp hc with rfl | hc
            · exact ⟨by decide, by decide⟩
            · rcases mem_joinBar hc with rfl | ⟨w, hw, hcw⟩
              · exact ⟨by decide, by decide⟩
              · rcases List.mem_map.mp hw with ⟨i, _, rfl⟩
                exact digit_str_item_wf (natToStr_digits i).2 c hcw
        · rcases List.mem_cons.mp hc with rfl | hc
          · exact ⟨by decide, by decide⟩
          · exact hesc _ hsuf c hc

theorem extract_formatted : ∀ (items : List Str),
    (∀ item ∈ items, item ≠ [] ∧ (∀ c ∈ item, isQuote c = false)) →
    extractQuoted ('\n' :: (joinNL (items.map wrapItem) ++ ['\n'])) = items := by
  intro items
  induction items with
  | nil => intro _; rfl
  | cons i irest ih =>
    intro hwf
    obtain ⟨hine, hiq⟩ := hwf i (List.mem_cons_self _ _)
    cases irest with
    | nil =>
      rw [show ('\n' :: (joinNL ([i].map wrapItem) ++ ['\n']) : Str) =
          ('\n' :: sp4) ++ (dq :: (i ++ dq :: [',', '\n'])) from by
        simp [joinNL, wrapItem, sp4]]
      rw [extractQuoted_skip (by decide)]
      rw [extractQuoted_item (by decide) (by decide) hine hiq]
      rfl
    | cons j jrest =>
      rw [show ('\n' :: (joinNL ((i :: j :: jrest).map wrapItem) ++ ['\n']) : Str) =
          ('\n' :: sp4) ++ (dq :: (i ++ dq ::
            (',' :: ('\n' :: (joinNL ((j :: jrest).map wrapItem) ++ ['\n']))))) from by
        simp [joinNL, wrapItem, sp4]]
      rw [extractQuoted_skip (by decide)]
      rw [extractQuoted_item (by decide) (by decide) hine hiq]
      rw [extractQuoted_cons_not_quote (by decide)]
      rw [ih (fun it hit => hwf it (List.mem_cons_of_mem _ hit))]

theorem mem_wrapItem {c : Char} {i : Str} (h : c ∈ wrapItem i) :
    c = ' ' ∨ c = dq ∨ c = ',' ∨ c ∈ i := by
  unfold wrapItem sp4 at h
  rcases List.mem_append.mp h with h | h
  · rcases List.mem_cons.mp h with rfl | h
    · exact Or.inl rfl
    rcases List.mem_cons.mp h with rfl | h
    · exact Or.inl rfl
    rcases List.mem_cons.mp h with rfl | h
    · exact Or.inl rfl
    rcases List.mem_cons.mp h with rfl | h
    · exact Or.inl rfl
    · cases h
  · rcases List.mem_cons.mp h with rfl | h
    · exact Or.inr (Or.inl rfl)
    rcases List.mem_append.mp h with h | h
    · exact Or.inr (Or.inr (Or.inr h))
    rcases List.mem_cons.mp h with rfl | h
    · exact Or.inr (Or.inl rfl)
    rcases List.mem_cons.mp h with rfl | h
    · exact Or.inr (Or.inr (Or.inl rfl))
    · cases h

theorem mem_joinNL_wrap {c : Char} {items : List Str}
    (h : c ∈ joinNL (items.map wrapItem)) :
    c = '\n' ∨ c = ' ' ∨ c = dq ∨ c = ',' ∨ ∃ it ∈ items, c ∈ it := by
  induction items with
  | nil => cases h
  | cons i irest ih =>
    cases irest with
    | nil =>
      have h' : c ∈ wrapItem i := h
      rcases mem_wrapItem h' with h | h | h
      · exact Or.inr (Or.inl h)
      · exact Or.inr (Or.inr (Or.inl h))
      · rcases h with h | h
        · exact Or.inr (Or.inr (Or.inr (Or.inl h)))
        · exact Or.inr (Or.inr (Or.inr (Or.inr ⟨i, List.mem_cons_self _ _, h⟩)))
    | cons j jrest =>
      rw [show joinNL ((i :: j :: jrest).map wrapItem) =
        wrapItem i ++ '\n' :: joinNL ((j :: jrest).map wrapItem) from rfl] at h
      rcases List.mem_append.mp h with h | h
      · rcases mem_wrapItem h with h | h | h
        · exact Or.inr (Or.inl h)
        · exact Or.inr (Or.inr (Or.inl h))
        · rcases h with h | h
          · exact Or.inr (Or.inr (Or.inr (Or.inl h)))
          · exact Or.inr (Or.inr (Or.inr (Or.inr ⟨i, List.mem_cons_self _ _, h⟩)))
      · rcases List.mem_cons.mp h with rfl | h
        · exact Or.inl rfl
        · rcases ih h with h | h | h | h | ⟨it, hit, hc⟩
          · exact Or.inl h
          · exact Or.inr (Or.inl h)
          · exact Or.inr (Or.inr (Or.inl h))
          · exact Or.inr (Or.inr (Or.inr (Or.inl h)))
          · exact Or.inr (Or.inr (Or.inr (Or.inr ⟨it, List.mem_cons_of_mem _ hit, hc⟩)))

theorem parseIgnore_format (univ : List Str) {items : List Str}
    (hit : ∀ item ∈ items, item ≠ [] ∧ (∀ c ∈ item, isQuote c = false) ∧ ']' ∉ item) :
    parseIgnoreItems (formatIgnoreList items) univ = resolveItems items univ := by
  cases items with
  | nil => rfl
  | cons i0 irest =>
    unfold formatIgnoreList formatStringList
    rw [if_neg (by simp)]
    unfold parseIgnoreItems
    rw [bracketInner_append_skip (by decide)]
    rw [show ('[' :: '\n' :: (joinNL ((i0 :: irest).map wrapItem) ++ ['\n', ']']) : Str) =
        '[' :: (('\n' :: (joinNL ((i0 :: irest).map wrapItem) ++ ['\n'])) ++ ']' :: []) from by
      simp]
    rw [bracketInner_found (by
      intro hm
      rcases List.mem_cons.mp hm with heq | hm2
      · exact absurd heq (by decide)
      rcases List.mem_append.mp hm2 with hm3 | hm3
      · rcases mem_joinNL_wrap hm3 with h | h | h | h | ⟨it, hit', hc⟩
        · exact absurd h (by decide)
        · exact absurd h (by decide)
        · exact absurd h (by decide)
        · exact absurd h (by decide)
        · exact (hit it hit').2.2 hc
      · rcases List.mem_cons.mp hm3 with heq | hm4
        · exact absurd heq (by decide)
        · cases hm4)]
    show resolveItems (extractQuoted
      ('\n' :: (joinNL ((i0 :: irest).map wrapItem) ++ ['\n']))) univ = _
    rw [extract_formatted (i0 :: irest) (fun it h => ⟨(hit it h).1, (hit it h).2.1⟩)]

/-- C1 counterexample: round-trip set equality fails as stated.  Over the
universe `{a.0.b, xa.0.b}` with selection `{a.0.b}`, the optimizer's
full-wildcard branch emits `re:a\.\d+\.b`, and resolving the emitted
ignore list adds the unselected path `xa.0.b` as well, because the regex
test is unanchored and the pattern matches inside the longer path. -/
theorem claim_C1_counterexample :
    "xa.0.b".toList ∈ parseIgnoreItems
      (formatIgnoreList (optimizeSelection ["a.0.b".toList]
        ["a.0.b".toList, "xa.0.b".toList]).2)
      ["a.0.b".toList, "xa.0.b".toList] ∧
    "xa.0.b".toList ∉ ["a.0.b".toList] := by
  decide

/-- C1 amended: for every selection that is a subset of the universe and
consists of well-formed module paths (nonempty, free of quote characters,
of the closing bracket and of the opening brace, not starting with the
`re:` marker, and with a canonical decimal layer index when templated),
resolving the ignore-list text emitted from the optimizer's compressed
output against the same universe yields a superset of the selection whose
members all lie in the universe — for the full-wildcard, the
few-literals and the alternation branches alike.  Exact set equality does
not hold in general (see the counterexample): unanchored regex matching
can add universe paths from outside the emitted template. -/
theorem claim_C1_roundtrip (sel univ : List Str)
    (hsub : ∀ p ∈ sel, p ∈ univ)
    (hwf : ∀ p ∈ sel, wfPath p = true)
    (hcanon : ∀ p ∈ sel, canonIdx p = true) :
    (∀ p ∈ sel, p ∈ parseIgnoreItems
      (formatIgnoreList (optimizeSelection sel univ).2) univ) ∧
    (∀ q ∈ parseIgnoreItems (formatIgnoreList (optimizeSelection sel univ).2) univ,
      q ∈ univ) := by
  rw [parseIgnore_format univ (optimized_items_wf hwf)]
  refine ⟨?_, fun q hq => resolveItems_subset hq⟩
  intro p hp
  have hne : sel ≠ [] := by
    rintro rfl
    cases hp
  obtain ⟨hpne, hpchars, hpre⟩ := wfPath_spec (hwf p hp)
  cases htpl : toTemplate p with
  | none =>
    refine mem_resolveItems.mpr ⟨p, ?_, hsub p hp, ?_⟩
    · rw [optimizeSelection_snd hne]
      refine List.mem_append_left _ ?_
      exact List.mem_filter.mpr ⟨hp, by simp [nonTemplated, htpl]⟩
    · rw [if_neg (by simp [hpre])]
  | some tpl =>
    obtain ⟨pre, ds, suf⟩ := tpl
    obtain ⟨hpeq, hdsne, hdsdig⟩ := toTemplate_spec htpl
    have hds : ds = natToStr (strToNat ds) := by
      have hc := hcanon p hp
      unfold canonIdx at hc
      rw [htpl] at hc
      simpa using hc
    obtain ⟨g, hg, hgt, hgidx⟩ := groupsOf_complete hp htpl
    obtain ⟨q, hqsel, dsq, htq, hgkey⟩ := groupsOf_src hg
    obtain ⟨hqeq, _, _⟩ := toTemplate_spec htq
    obtain ⟨_, hqchars, _⟩ := wfPath_spec (hwf q hqsel)
    have hbp : '{' ∉ pre := fun hm =>
      (hpchars '{' (hpeq ▸ List.mem_append_left _ (List.mem_append_left _ hm))).2.2 rfl
    have hbq : '{' ∉ g.pre := fun hm =>
      (hqchars '{' (hqeq ▸ List.mem_append_left _ (List.mem_append_left _ hm))).2.2 rfl
    obtain ⟨hpreq, hsufq⟩ := templateKey_inj hbq hbp (hgkey.symm.trans hgt)
    have hblock : ∀ item, item ∈ emitGroup (countTemplate univ g.tmpl) g →
        item ∈ (optimizeSelection sel univ).2 := by
      intro item hitem
      rw [optimizeSelection_snd hne]
      refine List.mem_append_right _ ?_
      exact List.mem_flatten.mpr ⟨_, List.mem_map.mpr ⟨g, hg, rfl⟩, hitem⟩
    have hidx_sorted : strToNat ds ∈ sortIns natLeB g.idxs := mem_sortIns.mpr hgidx
    by_cases hfull : (sortIns natLeB g.idxs).length = countTemplate univ g.tmpl
    · refine mem_resolveItems.mpr
        ⟨reMark ++ (escapeRegex g.pre ++ (wildcardPat ++ escapeRegex g.suf)), ?_,
          hsub p hp, ?_⟩
      · apply hblock
        unfold emitGroup
        rw [if_pos hfull, List.mem_singleton]
        simp [List.append_assoc]
      · rw [if_pos (List.isPrefixOf_iff_prefix.mpr (List.prefix_append _ _))]
        rw [show (3 : Nat) = reMark.length from rfl, List.drop_left]
        refine ⟨_, parseRegex_wildcard g.pre g.suf, ?_⟩
        apply rtest_of_rmatchPre
        rw [hpreq, hsufq, hpeq, List.append_assoc]
        rw [rmatchPre_lits pre (RItem.digits :: suf.map RItem.ch) (ds ++ suf)]
        exact rmatchPre_digits_cons _ _ hdsne hdsdig (rmatchPre_lits_self suf)
    · by_cases hfew : (sortIns natLeB g.idxs).length ≤ 3
      · have hitem_eq : g.pre ++ natToStr (strToNat ds) ++ g.suf = p := by
          rw [hpreq, hsufq, ← hds, ← hpeq]
        refine mem_resolveItems.mpr ⟨p, ?_, hsub p hp, ?_⟩
        · apply hblock
          unfold emitGroup
          rw [if_neg hfull, if_pos hfew]
          exact List.mem_map.mpr ⟨strToNat ds, hidx_sorted, hitem_eq⟩
        · rw [if_neg (by simp [hpre])]
      · have hws : ∀ w ∈ (sortIns natLeB g.idxs).map natToStr,
            w ≠ [] ∧ w.all Char.isDigit = true := by
          intro w hw
          rcases List.mem_map.mp hw with ⟨i, _, rfl⟩
          exact ⟨(natToStr_digits i).1, (natToStr_digits i).2⟩
        have hwsne : (sortIns natLeB g.idxs).map natToStr ≠ [] :=
          List.ne_nil_of_mem (List.mem_map_of_mem natToStr hidx_sorted)
        refine mem_resolveItems.mpr
          ⟨reMark ++ (escapeRegex g.pre ++
            ('(' :: (joinBar ((sortIns natLeB g.idxs).map natToStr) ++
              ')' :: escapeRegex g.suf))), ?_, hsub p hp, ?_⟩
        · apply hblock
          unfold emitGroup
          rw [if_neg hfull, if_neg hfew]
          by_cases hcont : isContiguous (sortIns natLeB g.idxs) = true
          · rw [if_pos hcont, List.mem_singleton]
            simp [List.append_assoc]
          · rw [if_neg hcont, List.mem_singleton]
            simp [List.append_assoc]
        · rw [if_pos (List.isPrefixOf_iff_prefix.mpr (List.prefix_append _ _))]
          rw [show (3 : Nat) = reMark.length from rfl, List.drop_left]
          refine ⟨_, parseRegex_alternation g.pre g.suf _ hwsne hws, ?_⟩
          apply rtest_of_rmatchPre
          rw [hpreq, hsufq, hpeq, List.append_assoc]
          rw [rmatchPre_lits pre
            (RItem.alts ((sortIns natLeB g.idxs).map natToStr) :: suf.map RItem.ch)
            (ds ++ suf)]
          refine rmatchPre_alts_cons _ _ ?_ (rmatchPre_lits_self suf)
          rw [hds]
          exact List.mem_map_of_mem natToStr hidx_sorted

/-- C1 witness: the amended round-trip applied to the one-path universe
`{a.1.b}` with that path selected. -/
theorem claim_C1_witness :
    (∀ p ∈ ["a.1.b".toList], p ∈ parseIgnoreItems
      (formatIgnoreList (optimizeSelection ["a.1.b".toList] ["a.1.b".toList]).2)
      ["a.1.b".toList]) ∧
    (∀ q ∈ parseIgnoreItems
      (formatIgnoreList (optimizeSelection ["a.1.b".toList] ["a.1.b".toList]).2)
      ["a.1.b".toList], q ∈ ["a.1.b".toList]) :=
  claim_C1_roundtrip ["a.1.b".toList] ["a.1.b".toList]
    (by decide) (by decide) (by decide)
